import Mathlib

/-!
Verification of the two resource-lifecycle subsystems of the repository:
the per-process file-descriptor table with `dup2` aliasing
(`src/userprog/syscall.c`) and the anonymous-page swap subsystem
(`src/vm/anon.c`).

The C code is shallowly embedded: every function is translated to a pure
Lean function over an explicit state record.  C `int` file descriptors are
modelled as `Int` (so out-of-range values, including the out-of-bounds
indices that `dup2` can produce, are representable); the descriptor table
is a total map `Int → FDEntry` whose meaningful region is `[0, limit)`.
The kernel's `struct file *` values `NULL`, `1` (the `STDIN` sentinel),
`2` (the `STDOUT` sentinel) and real heap pointers are modelled by the
tagged type `FDEntry`; real open files live in a heap `files : Nat →
Option Nat` mapping a file id to its `dupCount` (`none` = not allocated /
already freed by `file_close`).
-/

namespace Pintos

/-- A descriptor-table entry: the value stored in `curr->fdTable[fd]`.
`null` is the C `NULL`, `stdin` is the sentinel pointer value `1`
(`const int STDIN = 1`), `stdout` the sentinel `2`, and `handle id` a
real `struct file *`, identified by the heap id `id`. -/
inductive FDEntry where
  | null
  | stdin
  | stdout
  | handle (id : Nat)
deriving DecidableEq

/-- The per-process state touched by the descriptor-table code of
`syscall.c`.  `limit` is `FDCOUNT_LIMIT` (declared in a header outside
`src/`, so kept as a state parameter), `fdIdx` the scan mark, the two
counters are `curr->stdin_count` / `curr->stdout_count`.  `files id`
holds the `dupCount` of the live open file `id`; `nextId` allocates
fresh ids for `filesys_open`; `closedLog` records every `file_close`
call, most recent first. -/
structure PState where
  limit : Nat
  fdTable : Int → FDEntry
  fdIdx : Nat
  stdin_count : Int
  stdout_count : Int
  files : Nat → Option Nat
  nextId : Nat
  closedLog : List Nat

/-- `process_get_file` from syscall.c: bounds-check, then read the slot. -/
def process_get_file (s : PState) (fd : Int) : FDEntry :=
  if 0 ≤ fd ∧ fd < (s.limit : Int) then s.fdTable fd else .null

/-- `process_close_file` from syscall.c: bounds-check, then clear the slot. -/
def process_close_file (s : PState) (fd : Int) : PState :=
  if 0 ≤ fd ∧ fd < (s.limit : Int) then
    { s with fdTable := Function.update s.fdTable fd .null }
  else s

/-- Structural-fuel form of the `while` loop of `process_add_file`; the
fuel only bounds the iteration count (`scanFrom` passes `limit - idx`,
which the loop can never exhaust), keeping the definition
kernel-reducible.  Its defining equation is `scanFrom_unfold`. -/
def scanFuel (t : Int → FDEntry) (limit : Nat) : Nat → Nat → Nat
  | 0, idx => idx
  | fuel + 1, idx =>
    if idx < limit ∧ t (idx : Int) ≠ .null then scanFuel t limit fuel (idx + 1) else idx

/-- The `while (curr->fdIdx < FDCOUNT_LIMIT && fdt[curr->fdIdx]) curr->fdIdx++;`
loop of `process_add_file`: the final value of `fdIdx`. -/
def scanFrom (t : Int → FDEntry) (limit idx : Nat) : Nat :=
  scanFuel t limit (limit - idx) idx

/-- The loop equation of the `process_add_file` scan. -/
theorem scanFrom_unfold (t : Int → FDEntry) (limit idx : Nat) :
    scanFrom t limit idx =
      if idx < limit ∧ t (idx : Int) ≠ .null then scanFrom t limit (idx + 1) else idx := by
  unfold scanFrom
  cases hfe : limit - idx with
  | zero =>
      rw [scanFuel, if_neg (fun hc => absurd hc.1 (by omega : ¬idx < limit))]
  | succ fuel =>
      rw [scanFuel]
      have hfe2 : limit - (idx + 1) = fuel := by omega
      rw [hfe2]

/-- `process_add_file` from syscall.c: advance the mark to the first free
slot, store there, return the slot; `-1` if the mark reaches the limit. -/
def process_add_file (s : PState) (f : FDEntry) : PState × Int :=
  let j := scanFrom s.fdTable s.limit s.fdIdx
  if s.limit ≤ j then ({ s with fdIdx := j }, -1)
  else ({ s with fdIdx := j, fdTable := Function.update s.fdTable (j : Int) f }, (j : Int))

/-- `file_close` (filesys collaborator): frees the file object and logs
the release. -/
def file_close (s : PState) (id : Nat) : PState :=
  { s with files := Function.update s.files id none, closedLog := id :: s.closedLog }

/-- The tail of `close` in syscall.c, after `process_close_file`:
`if (file_obj->dupCount == 0) file_close(file_obj); else file_obj->dupCount--;`.
Reading the `dupCount` of a freed object is undefined behaviour in the C;
the model leaves the state unchanged there (the branch is unreachable
from states satisfying the table invariant). -/
def closeHeap (s : PState) (id : Nat) : PState :=
  match s.files id with
  | some 0 => file_close s id
  | some (d + 1) => { s with files := Function.update s.files id (some d) }
  | none => s

/-- `close` from syscall.c, lines 312–335, translated branch for branch. -/
def close (s : PState) (fd : Int) : PState :=
  let obj := process_get_file s fd
  if obj = .null then s
  else
    let s1 :=
      if obj = .stdin ∨ fd = 0 then { s with stdin_count := s.stdin_count - 1 }
      else if obj = .stdout ∨ fd = 1 then { s with stdout_count := s.stdout_count - 1 }
      else s
    if fd ≤ 1 ∨ obj = .stdin ∨ obj = .stdout then s1
    else
      match obj with
      | .handle id => closeHeap (process_close_file s1 fd) id
      | _ => process_close_file s1 fd

/-- `old_file->dupCount++` on the file heap (no-op on a freed object,
which is undefined behaviour in the C and unreachable under the
invariant). -/
def bumpDup (files : Nat → Option Nat) (id : Nat) : Nat → Option Nat :=
  match files id with
  | some d => Function.update files id (some (d + 1))
  | none => files

/-- The `if (old_file == 1) … else old_file->dupCount++;` ladder of
`dup2`: bump the matching stream counter, or the handle's `dupCount`. -/
def dupBump (s : PState) (old_file : FDEntry) : PState :=
  if old_file = .stdin then { s with stdin_count := s.stdin_count + 1 }
  else if old_file = .stdout then { s with stdout_count := s.stdout_count + 1 }
  else
    match old_file with
    | .handle id => { s with files := bumpDup s.files id }
    | _ => s

/-- `dup2` from syscall.c, lines 342–369.  Note that the source fetches
`process_get_file(newfd)` into `new_file` but never uses it, and performs
no bounds check on `newfd` before `fdt[newfd] = old_file`. -/
def dup2 (s : PState) (oldfd newfd : Int) : PState × Int :=
  let old_file := process_get_file s oldfd
  if old_file = .null then (s, -1)
  else if oldfd = newfd then (s, newfd)
  else
    let s2 := close (dupBump s old_file) newfd
    ({ s2 with fdTable := Function.update s2.fdTable newfd old_file }, newfd)

/-- `open` from syscall.c (named `sys_open` because `open` is a Lean
keyword).  `ok` is the outcome of the external `filesys_open` call; on
success a fresh file object (with `dupCount = 0`) is allocated and handed
to `process_add_file`, and released again if the table is full. -/
def sys_open (s : PState) (ok : Bool) : PState × Int :=
  if !ok then (s, -1)
  else
    let id := s.nextId
    let s1 := { s with nextId := id + 1, files := Function.update s.files id (some 0) }
    let r := process_add_file s1 (.handle id)
    if r.2 = -1 then (file_close r.1 id, -1) else r

/-- Result of `read`/`write`: `exited` models `check_address` killing the
process, `notReached` the `NOT_REACHED()` kernel panic, and `ok` carries
the (unchanged) process state, the `int` return value, whether
`filesys_lock` was acquired, and the bytes moved (the bytes stored into
the user buffer for `read`, the bytes sent to the console for `write`). -/
inductive IORes where
  | exited
  | notReached
  | ok (s : PState) (ret : Int) (lockUsed : Bool) (bytes : List Nat)
deriving Inhabited

/-- Structural-fuel form of the `for` loop of `read`'s stdin branch; the
fuel only bounds the iteration count (`readLoop` passes `size - i`, which
the loop can never exhaust), keeping the definition kernel-reducible.
Its defining equation is `readLoop_unfold`. -/
def readFuel (input : Nat → Nat) (size : Nat) : Nat → Nat → List Nat × Nat
  | 0, i => ([], i)
  | fuel + 1, i =>
    if i < size then
      let c := input i
      if c = 0 then ([c], i)
      else
        let r := readFuel input size fuel (i + 1)
        (c :: r.1, r.2)
    else ([], i)

/-- The `for` loop of `read`'s stdin branch, started at iteration `i`:
returns the bytes stored through `*buf++` and the final value of `i`
(which is the C return value).  `input j` is the byte produced by the
`(j+1)`-st call of `input_getc`. -/
def readLoop (input : Nat → Nat) (size i : Nat) : List Nat × Nat :=
  readFuel input size (size - i) i

/-- The loop equation of `read`'s stdin byte-copy loop. -/
theorem readLoop_unfold (input : Nat → Nat) (size i : Nat) :
    readLoop input size i =
      if i < size then
        if input i = 0 then ([input i], i)
        else ((input i) :: (readLoop input size (i + 1)).1, (readLoop input size (i + 1)).2)
      else ([], i) := by
  unfold readLoop
  cases hfe : size - i with
  | zero =>
      rw [readFuel, if_neg (by omega : ¬i < size)]
  | succ fuel =>
      rw [readFuel]
      have hfe2 : size - (i + 1) = fuel := by omega
      rw [hfe2]

/-- `read` from syscall.c, lines 219–255.  `bufOk` is the outcome of
`check_address(buffer)`; `fileReadRet` the return value of the external
`file_read` call used in the real-file branch. -/
def readSys (s : PState) (fd : Int) (size : Nat) (input : Nat → Nat)
    (bufOk : Bool) (fileReadRet : Int) : IORes :=
  if !bufOk then .exited
  else
    match process_get_file s fd with
    | .null => .ok s (-1) false []
    | .stdin =>
        if s.stdin_count = 0 then .notReached
        else
          let r := readLoop input size 0
          .ok s (r.2 : Int) false r.1
    | .stdout => .ok s (-1) false []
    | .handle _ => .ok s fileReadRet true []

/-- `write` from syscall.c, lines 258–288.  `buffer j` is the `j`-th user
byte; the stdout branch is `putbuf(buffer, size); return size;`.
`fileWriteRet` is the return value of the external `file_write` call. -/
def writeSys (s : PState) (fd : Int) (buffer : Nat → Nat) (size : Nat)
    (bufOk : Bool) (fileWriteRet : Int) : IORes :=
  if !bufOk then .exited
  else
    match process_get_file s fd with
    | .null => .ok s (-1) false []
    | .stdout =>
        if s.stdout_count = 0 then .notReached
        else .ok s (size : Int) false ((List.range size).map buffer)
    | .stdin => .ok s (-1) false []
    | .handle _ => .ok s fileWriteRet true []

/-- Modelled from the spec: the initial descriptor table set up by the
process-creation code (not under `src/`): slots 0 and 1 hold the standard
stream sentinels, the scan mark starts at 2, both stream open counts are
1, and no real file is open. -/
def initState (limit : Nat) : PState where
  limit := limit
  fdTable := fun fd => if fd = 0 then .stdin else if fd = 1 then .stdout else .null
  fdIdx := 2
  stdin_count := 1
  stdout_count := 1
  files := fun _ => none
  nextId := 0
  closedLog := []

/-- Number of descriptor slots (within `[0, limit)`) pointing at file `id`. -/
def slotCountF (t : Int → FDEntry) (limit : Nat) (id : Nat) : Nat :=
  ∑ n ∈ Finset.range limit, if t (n : Int) = .handle id then 1 else 0

/-- Number of descriptor slots of `s` pointing at file `id`. -/
def slotCount (s : PState) (id : Nat) : Nat :=
  slotCountF s.fdTable s.limit id

/-- The alias-count invariant of the descriptor table (spec §3), plus the
bookkeeping facts needed to preserve it: every live file's `dupCount` is
one less than the number of slots pointing at it; freed or unallocated
files have no slots pointing at them; ids at or above `nextId` are
unallocated; and `file_close` was called at most once per id, only on
ids already allocated. -/
def Inv (s : PState) : Prop :=
  (∀ id d, s.files id = some d → slotCount s id = d + 1) ∧
  (∀ id, s.files id = none → slotCount s id = 0) ∧
  (∀ id, s.nextId ≤ id → s.files id = none) ∧
  s.closedLog.Nodup ∧
  (∀ id, id ∈ s.closedLog → s.files id = none ∧ id < s.nextId)

/-- `k` successive successful `open` calls (each `filesys_open`
succeeding), as used by the table-filling scenario of spec §8. -/
def openIter (s : PState) : Nat → PState
  | 0 => s
  | k + 1 => (sys_open (openIter s k) true).1

/-- A small concrete process state used by witnesses: `limit = 8`, one
real open file (id 0, `dupCount` 0) at descriptor 2. -/
def wState : PState where
  limit := 8
  fdTable := fun fd =>
    if fd = 0 then .stdin else if fd = 1 then .stdout
    else if fd = 2 then .handle 0 else .null
  fdIdx := 3
  stdin_count := 1
  stdout_count := 1
  files := fun id => if id = 0 then some 0 else none
  nextId := 1
  closedLog := []

/-- A concrete state with `limit = 4` and a real open file at
descriptor 2, used to exhibit the missing bounds check in `dup2`. -/
def c2State : PState where
  limit := 4
  fdTable := fun fd =>
    if fd = 0 then .stdin else if fd = 1 then .stdout
    else if fd = 2 then .handle 0 else .null
  fdIdx := 3
  stdin_count := 1
  stdout_count := 1
  files := fun id => if id = 0 then some 0 else none
  nextId := 1
  closedLog := []

/-- The four-step run `open; dup2(2,0); open; dup2(3,0)` from the
initial state with `limit = 8`: the first `dup2` parks handle 0 in
slot 0, the second overwrites that slot while `close(0)` — taking the
`fd == 0` standard-stream branch — neither clears the slot nor touches
handle 0's `dupCount`. -/
def cexState : PState :=
  (dup2 (sys_open (dup2 (sys_open (initState 8) true).1 2 0).1 true).1 3 0).1

/-! ### Anonymous-page swap subsystem (`src/vm/anon.c`)

The swap disk is modelled at byte granularity: `disk sec o` is byte `o`
of sector `sec`; only offsets below `DISK_SECTOR_SIZE` are meaningful.
A frame's `kva` is the page content as a byte map (or `none` for a `NULL`
kva).  The C sentinel `INVALID_SLOT_IDX` for `swap_slot_idx` (defined in
a header outside `src/`) is modelled as `Option.none`; the external
`pml4_clear_page` / `pml4_set_dirty` page-table calls and the
`anon_page->owner` field play no part in the claims and are not
modelled. -/

/-- Modelled from the spec: `PGSIZE` from the kernel headers (not under
`src/`); the spec's example uses a 4096-byte page. -/
def PGSIZE : Nat := 4096

/-- Modelled from the spec: `DISK_SECTOR_SIZE` from `devices/disk.h`
(not under `src/`); the spec's example uses 512-byte sectors. -/
def DISK_SECTOR_SIZE : Nat := 512

/-- The `CEILING` macro from anon.c. -/
def CEILING (x y : Nat) : Nat := (x + y - 1) / y

/-- `SECTORS_PER_PAGE` from anon.c. -/
def SECTORS_PER_PAGE : Nat := CEILING PGSIZE DISK_SECTOR_SIZE

/-- A physical frame: `kva` is the kernel virtual address's page content
(`none` models a `NULL` kva). -/
structure Frame where
  kva : Option (Nat → Nat)

/-- The per-page state used by anon.c: `page->frame` and
`anon_page->swap_slot_idx` (`none` = `INVALID_SLOT_IDX`). -/
structure PageSt where
  frame : Option Frame
  swap_slot_idx : Option Nat

/-- The global swap state of anon.c: the `swap_table` bitmap (of
`size` bits, `true` = slot in use) and the swap disk's sectors. -/
structure SwapSt where
  size : Nat
  bitmap : Nat → Bool
  disk : Nat → Nat → Nat

/-- `bitmap_scan_and_flip (swap_table, 0, 1, false)`'s scan portion:
the first-fit index of a clear bit (`none` = `BITMAP_ERROR`). -/
def bitmap_scan_first_false (bm : Nat → Bool) (size : Nat) : Option Nat :=
  (List.range size).find? fun n => !bm n

/-- The `disk_write` loop of `anon_swap_out`: after `n` iterations,
sector `slot · SECTORS_PER_PAGE + i` (for `i < n`) holds the bytes
`kva (i · DISK_SECTOR_SIZE + o)`. -/
def diskWriteLoop (disk : Nat → Nat → Nat) (slot : Nat) (kva : Nat → Nat) :
    Nat → Nat → Nat → Nat
  | 0 => disk
  | n + 1 =>
    let d := diskWriteLoop disk slot kva n
    fun sec o =>
      if sec = slot * SECTORS_PER_PAGE + n then kva (n * DISK_SECTOR_SIZE + o) else d sec o

/-- The `disk_read` loop of `anon_swap_in`: after `n` iterations the
bytes `[0, n · DISK_SECTOR_SIZE)` of the target kva are replaced by the
corresponding bytes of sectors `slot · SECTORS_PER_PAGE + i`. -/
def diskReadLoop (disk : Nat → Nat → Nat) (slot : Nat) (kva : Nat → Nat) :
    Nat → Nat → Nat
  | 0 => kva
  | n + 1 =>
    let k := diskReadLoop disk slot kva n
    fun o =>
      if n * DISK_SECTOR_SIZE ≤ o ∧ o < n * DISK_SECTOR_SIZE + DISK_SECTOR_SIZE then
        disk (slot * SECTORS_PER_PAGE + n) (o - n * DISK_SECTOR_SIZE)
      else k o

/-- Result of `anon_swap_out`: `kernelCrash` models
`PANIC("there is no more free slot in the disk")`; otherwise the `bool`
return value, the new swap state, and the new page state. -/
inductive SwapOutRes where
  | kernelCrash
  | result (ok : Bool) (sw : SwapSt) (p : PageSt)

/-- `anon_swap_out` from anon.c, lines 85–113: allocate a slot by
first-fit scan-and-flip (PANIC when exhausted), *then* check for a
missing frame/kva and fail, else write the page across the slot's
sectors, record the slot id and detach the frame.  The external
`pml4_clear_page`/`pml4_set_dirty` calls are not modelled. -/
def anon_swap_out (sw : SwapSt) (p : PageSt) : SwapOutRes :=
  match bitmap_scan_first_false sw.bitmap sw.size with
  | none => .kernelCrash
  | some k =>
    let sw1 := { sw with bitmap := Function.update sw.bitmap k true }
    match p.frame with
    | none => .result false sw1 p
    | some fr =>
      match fr.kva with
      | none => .result false sw1 p
      | some kva =>
        let sw2 := { sw1 with disk := diskWriteLoop sw1.disk k kva SECTORS_PER_PAGE }
        .result true sw2 { p with swap_slot_idx := some k, frame := none }

/-- `anon_swap_in` from anon.c, lines 63–82: fail if already resident
(`swap_slot_idx` invalid); else read the slot's sectors into `kva`,
clear the slot's bitmap bit, and invalidate the page's slot id.
Returns (bool return value, swap state, page state, kva content). -/
def anon_swap_in (sw : SwapSt) (p : PageSt) (kva : Nat → Nat) :
    Bool × SwapSt × PageSt × (Nat → Nat) :=
  match p.swap_slot_idx with
  | none => (false, sw, p, kva)
  | some slot =>
    let kva1 := diskReadLoop sw.disk slot kva SECTORS_PER_PAGE
    let sw1 := { sw with bitmap := Function.update sw.bitmap slot false }
    (true, sw1, { p with swap_slot_idx := none }, kva1)

/-- Result of `anon_destroy`: `assertFail` models the
`ASSERT (anon_page->swap_slot_idx != INVALID_SLOT_IDX)` failing;
otherwise the new swap state and whether the frame path
(`list_remove` + `free(page->frame)`) was taken. -/
inductive DestroyRes where
  | assertFail
  | ok (sw : SwapSt) (framePath : Bool)

/-- `anon_destroy` from anon.c, lines 116–131: if a frame is attached,
remove it from the frame list and free it (bitmap untouched); otherwise
assert a valid slot id and clear that slot's bit (frame untouched). -/
def anon_destroy (sw : SwapSt) (p : PageSt) : DestroyRes :=
  match p.frame with
  | some _ => .ok sw true
  | none =>
    match p.swap_slot_idx with
    | none => .assertFail
    | some slot => .ok { sw with bitmap := Function.update sw.bitmap slot false } false

/-! ### Properties of the descriptor-slot scan -/

theorem scanFrom_ge (t : Int → FDEntry) (limit idx : Nat) : idx ≤ scanFrom t limit idx := by
  rw [scanFrom_unfold]
  split
  next h => exact Nat.le_of_succ_le (scanFrom_ge t limit (idx + 1))
  next => exact Nat.le_refl idx
termination_by limit - idx
decreasing_by omega

theorem scanFrom_le (t : Int → FDEntry) (limit idx : Nat) (h : idx ≤ limit) :
    scanFrom t limit idx ≤ limit := by
  rw [scanFrom_unfold]
  split
  next hc => exact scanFrom_le t limit (idx + 1) hc.1
  next => exact h
termination_by limit - idx
decreasing_by omega

theorem scanFrom_null (t : Int → FDEntry) (limit idx : Nat)
    (h : scanFrom t limit idx < limit) : t (scanFrom t limit idx : Int) = .null := by
  rw [scanFrom_unfold] at h ⊢
  split at h
  next hc =>
    rw [if_pos hc]
    exact scanFrom_null t limit (idx + 1) h
  next hc =>
    rw [if_neg hc]
    by_contra hnn
    exact hc ⟨h, hnn⟩
termination_by limit - idx
decreasing_by omega

theorem scanFrom_occupied (t : Int → FDEntry) (limit idx : Nat) (i : Nat)
    (h1 : idx ≤ i) (h2 : i < scanFrom t limit idx) : t (i : Int) ≠ .null := by
  rw [scanFrom_unfold] at h2
  split at h2
  next hc =>
    rcases Nat.eq_or_lt_of_le h1 with rfl | hlt
    · exact hc.2
    · exact scanFrom_occupied t limit (idx + 1) i hlt h2
  next => omega
termination_by limit - idx
decreasing_by omega

theorem scanFrom_eq_of (t : Int → FDEntry) (limit idx j : Nat)
    (h1 : idx ≤ j) (h2 : j ≤ limit) (h3 : j < limit → t (j : Int) = .null)
    (h4 : ∀ i, idx ≤ i → i < j → t (i : Int) ≠ .null) :
    scanFrom t limit idx = j := by
  rw [scanFrom_unfold]
  split
  next hc =>
    have hne : idx ≠ j := by
      rintro rfl
      exact hc.2 (h3 hc.1)
    exact scanFrom_eq_of t limit (idx + 1) j (by omega) h2 h3
      (fun i hi hij => h4 i (by omega) hij)
  next hc =>
    by_contra hne
    have hij : idx < j := by omega
    exact hc ⟨by omega, h4 idx (Nat.le_refl idx) hij⟩
termination_by limit - idx
decreasing_by omega

/-! ### Properties of `slotCountF` -/

theorem slotCountF_sum_split (g : Int → FDEntry) (limit : Nat) (id : Nat) {m : Nat}
    (hm : m ∈ Finset.range limit) :
    slotCountF g limit id
      = (if g (m : Int) = .handle id then 1 else 0)
        + ∑ n ∈ (Finset.range limit).erase m, (if g (n : Int) = .handle id then 1 else 0) :=
  (Finset.add_sum_erase _ _ hm).symm

theorem slotCountF_update (f : Int → FDEntry) (limit : Nat) (j : Int) (e : FDEntry)
    (id : Nat) (h0 : 0 ≤ j) (hl : j < (limit : Int)) :
    slotCountF (Function.update f j e) limit id + (if f j = .handle id then 1 else 0)
      = slotCountF f limit id + (if e = .handle id then 1 else 0) := by
  obtain ⟨m, rfl⟩ : ∃ m : Nat, (m : Int) = j := ⟨j.toNat, Int.toNat_of_nonneg h0⟩
  have hm : m ∈ Finset.range limit := Finset.mem_range.mpr (by exact_mod_cast hl)
  rw [slotCountF_sum_split f limit id hm,
    slotCountF_sum_split (Function.update f (m : Int) e) limit id hm]
  have hsum : ∑ n ∈ (Finset.range limit).erase m,
        (if Function.update f (m : Int) e (n : Int) = .handle id then 1 else 0)
      = ∑ n ∈ (Finset.range limit).erase m, (if f (n : Int) = .handle id then 1 else 0) := by
    refine Finset.sum_congr rfl fun n hn => ?_
    have hne : (n : Int) ≠ (m : Int) := by
      exact_mod_cast Finset.ne_of_mem_erase hn
    rw [Function.update_noteq hne]
  rw [hsum, Function.update_same]
  omega

theorem slotCountF_pos (t : Int → FDEntry) (limit : Nat) (id : Nat) (fd : Int)
    (h0 : 0 ≤ fd) (hl : fd < (limit : Int)) (ht : t fd = .handle id) :
    1 ≤ slotCountF t limit id := by
  obtain ⟨m, rfl⟩ : ∃ m : Nat, (m : Int) = fd := ⟨fd.toNat, Int.toNat_of_nonneg h0⟩
  have hm : m ∈ Finset.range limit := Finset.mem_range.mpr (by exact_mod_cast hl)
  rw [slotCountF_sum_split t limit id hm, ht, if_pos rfl]
  omega

theorem slotCountF_two (t : Int → FDEntry) (limit : Nat) (id : Nat) (a b : Int)
    (ha0 : 0 ≤ a) (hal : a < (limit : Int)) (hb0 : 0 ≤ b) (hbl : b < (limit : Int))
    (hab : a ≠ b) (hta : t a = .handle id) (htb : t b = .handle id) :
    2 ≤ slotCountF t limit id := by
  obtain ⟨m, rfl⟩ : ∃ m : Nat, (m : Int) = a := ⟨a.toNat, Int.toNat_of_nonneg ha0⟩
  obtain ⟨m', rfl⟩ : ∃ m' : Nat, (m' : Int) = b := ⟨b.toNat, Int.toNat_of_nonneg hb0⟩
  have hm : m ∈ Finset.range limit := Finset.mem_range.mpr (by exact_mod_cast hal)
  have hmm : m' ≠ m := by
    intro h
    exact hab (by exact_mod_cast h.symm)
  have hm' : m' ∈ (Finset.range limit).erase m :=
    Finset.mem_erase.mpr ⟨hmm, Finset.mem_range.mpr (by exact_mod_cast hbl)⟩
  rw [slotCountF_sum_split t limit id hm, hta, if_pos rfl]
  have h1 : (1 : Nat) ≤ ∑ n ∈ (Finset.range limit).erase m,
      (if t (n : Int) = .handle id then 1 else 0) := by
    have h2 := Finset.single_le_sum
      (f := fun n : Nat => if t (n : Int) = .handle id then 1 else 0)
      (fun i _ => Nat.zero_le _) hm'
    simpa [htb] using h2
  omega

/-- `process_get_file` returning a non-null entry implies the descriptor
is in bounds and the slot holds that entry. -/
theorem get_bounds (s : PState) (fd : Int) (e : FDEntry)
    (hget : process_get_file s fd = e) (hne : e ≠ .null) :
    0 ≤ fd ∧ fd < (s.limit : Int) ∧ s.fdTable fd = e := by
  unfold process_get_file at hget
  split at hget
  next h => exact ⟨h.1, h.2, hget⟩
  next => exact absurd hget.symm hne

/-! ### Characterization of `close` -/

theorem close_of_null (s : PState) (fd : Int) (h : process_get_file s fd = .null) :
    close s fd = s := by
  simp [close, h]

/-- When the slot holds a stream sentinel, or the descriptor is 0/1,
`close` only touches the two stream counters. -/
theorem close_counters_only (s : PState) (fd : Int)
    (hne : process_get_file s fd ≠ .null)
    (hcase : process_get_file s fd = .stdin ∨ process_get_file s fd = .stdout ∨ fd ≤ 1) :
    (close s fd).fdTable = s.fdTable ∧ (close s fd).files = s.files ∧
    (close s fd).closedLog = s.closedLog ∧ (close s fd).nextId = s.nextId ∧
    (close s fd).fdIdx = s.fdIdx ∧ (close s fd).limit = s.limit := by
  have hfinal : fd ≤ 1 ∨ process_get_file s fd = .stdin ∨ process_get_file s fd = .stdout := by
    tauto
  simp only [close]
  rw [if_neg hne, if_pos hfinal]
  split_ifs <;> exact ⟨rfl, rfl, rfl, rfl, rfl, rfl⟩

theorem close_handle_eq (s : PState) (fd : Int) (id : Nat)
    (hget : process_get_file s fd = .handle id) (hfd : 2 ≤ fd) :
    close s fd = closeHeap (process_close_file s fd) id := by
  have hf0 : ¬(fd = 0) := by omega
  have hf1 : ¬(fd = 1) := by omega
  have hf2 : ¬(fd ≤ 1) := by omega
  simp [close, hget, hf0, hf1, hf2]

theorem process_close_file_inb (s : PState) (fd : Int)
    (h0 : 0 ≤ fd) (hl : fd < (s.limit : Int)) :
    process_close_file s fd = { s with fdTable := Function.update s.fdTable fd .null } := by
  unfold process_close_file
  rw [if_pos ⟨h0, hl⟩]

/-- `Inv` only depends on the table, the limit, the file heap, the id
allocator and the close log. -/
theorem inv_congr (s s' : PState)
    (hT : s'.fdTable = s.fdTable) (hLim : s'.limit = s.limit) (hF : s'.files = s.files)
    (hN : s'.nextId = s.nextId) (hL : s'.closedLog = s.closedLog) (h : Inv s) : Inv s' := by
  unfold Inv slotCount at *
  rw [hT, hLim, hF, hN, hL]
  exact h

theorem closeHeap_some_zero (s : PState) (id : Nat) (h : s.files id = some 0) :
    closeHeap s id = file_close s id := by
  unfold closeHeap
  rw [h]

theorem closeHeap_some_succ (s : PState) (id d : Nat) (h : s.files id = some (d + 1)) :
    closeHeap s id = { s with files := Function.update s.files id (some d) } := by
  unfold closeHeap
  rw [h]

/-- Core of `close`'s invariant preservation: clearing a slot that holds
handle `id` and then running the dupCount/`file_close` tail preserves the
invariant. -/
theorem clear_closeHeap_inv (s : PState) (fd : Int) (id : Nat) (hInv : Inv s)
    (hget : process_get_file s fd = .handle id) :
    Inv (closeHeap (process_close_file s fd) id) := by
  obtain ⟨h0, hl, ht⟩ := get_bounds s fd (.handle id) hget (by simp)
  obtain ⟨inv1, inv2, inv3, inv4, inv5⟩ := hInv
  have hpos : 1 ≤ slotCount s id := slotCountF_pos s.fdTable s.limit id fd h0 hl ht
  obtain ⟨d, hd⟩ : ∃ d, s.files id = some d := by
    cases hfid : s.files id with
    | none =>
        have := inv2 id hfid
        omega
    | some d => exact ⟨d, rfl⟩
  have hcount : slotCount s id = d + 1 := inv1 id d hd
  have hidlt : id < s.nextId := by
    by_contra hge
    have h := inv3 id (by omega)
    rw [hd] at h
    exact Option.noConfusion h
  have hc_id : slotCountF (Function.update s.fdTable fd .null) s.limit id = d := by
    have h := slotCountF_update s.fdTable s.limit fd .null id h0 hl
    rw [ht] at h
    simp at h
    have h2 : slotCount s id = d + 1 := hcount
    unfold slotCount at h2
    omega
  have hc_other : ∀ g, g ≠ id →
      slotCountF (Function.update s.fdTable fd .null) s.limit g = slotCount s g := by
    intro g hg
    have h := slotCountF_update s.fdTable s.limit fd .null g h0 hl
    rw [ht] at h
    have hne : ¬(id = g) := fun hh => hg hh.symm
    simp [hne] at h
    unfold slotCount
    omega
  have hidlog : id ∉ s.closedLog := by
    intro hmem
    have h := (inv5 id hmem).1
    rw [hd] at h
    exact Option.noConfusion h
  have hpcf := process_close_file_inb s fd h0 hl
  have hpT : (process_close_file s fd).fdTable = Function.update s.fdTable fd .null := by
    rw [hpcf]
  have hpF : (process_close_file s fd).files = s.files := by rw [hpcf]
  have hpLim : (process_close_file s fd).limit = s.limit := by rw [hpcf]
  have hpN : (process_close_file s fd).nextId = s.nextId := by rw [hpcf]
  have hpLog : (process_close_file s fd).closedLog = s.closedLog := by rw [hpcf]
  cases d with
  | zero =>
      rw [closeHeap_some_zero (process_close_file s fd) id (by rw [hpF]; exact hd)]
      have hsF : (file_close (process_close_file s fd) id).files
          = Function.update s.files id none := by
        show Function.update (process_close_file s fd).files id none = _
        rw [hpF]
      have hsC : ∀ g, slotCount (file_close (process_close_file s fd) id) g
          = slotCountF (Function.update s.fdTable fd .null) s.limit g := by
        intro g
        unfold slotCount
        show slotCountF (process_close_file s fd).fdTable (process_close_file s fd).limit g = _
        rw [hpT, hpLim]
      have hsN : (file_close (process_close_file s fd) id).nextId = s.nextId := by
        show (process_close_file s fd).nextId = _
        rw [hpN]
      have hsLog : (file_close (process_close_file s fd) id).closedLog
          = id :: s.closedLog := by
        show id :: (process_close_file s fd).closedLog = _
        rw [hpLog]
      refine ⟨?_, ?_, ?_, ?_, ?_⟩
      · intro g e hge
        rw [hsF, Function.update_apply] at hge
        rw [hsC]
        by_cases hg : g = id
        · rw [if_pos hg] at hge
          exact Option.noConfusion hge
        · rw [if_neg hg] at hge
          rw [hc_other g hg]
          exact inv1 g e hge
      · intro g hge
        rw [hsF, Function.update_apply] at hge
        rw [hsC]
        by_cases hg : g = id
        · rw [hg, hc_id]
        · rw [if_neg hg] at hge
          rw [hc_other g hg]
          exact inv2 g hge
      · intro g hge
        rw [hsN] at hge
        rw [hsF, Function.update_apply]
        by_cases hg : g = id
        · rw [if_pos hg]
        · rw [if_neg hg]
          exact inv3 g hge
      · rw [hsLog]
        exact List.nodup_cons.mpr ⟨hidlog, inv4⟩
      · intro g hge
        rw [hsLog] at hge
        rw [hsF, Function.update_apply, hsN]
        rcases List.mem_cons.mp hge with rfl | hgmem
        · simp [hidlt]
        · have h := inv5 g hgmem
          by_cases hg : g = id
          · simp [hg, hidlt]
          · simp [if_neg hg, h.1, h.2]
  | succ e =>
      rw [closeHeap_some_succ (process_close_file s fd) id e (by rw [hpF]; exact hd)]
      have hsF : ({ process_close_file s fd with
            files := Function.update (process_close_file s fd).files id (some e) }
              : PState).files
          = Function.update s.files id (some e) := by
        show Function.update (process_close_file s fd).files id (some e) = _
        rw [hpF]
      have hsC : ∀ g, slotCount ({ process_close_file s fd with
            files := Function.update (process_close_file s fd).files id (some e) } : PState) g
          = slotCountF (Function.update s.fdTable fd .null) s.limit g := by
        intro g
        unfold slotCount
        show slotCountF (process_close_file s fd).fdTable (process_close_file s fd).limit g = _
        rw [hpT, hpLim]
      have hsN : ({ process_close_file s fd with
            files := Function.update (process_close_file s fd).files id (some e) }
              : PState).nextId = s.nextId := by
        show (process_close_file s fd).nextId = _
        rw [hpN]
      have hsLog : ({ process_close_file s fd with
            files := Function.update (process_close_file s fd).files id (some e) }
              : PState).closedLog = s.closedLog := by
        show (process_close_file s fd).closedLog = _
        rw [hpLog]
      refine ⟨?_, ?_, ?_, ?_, ?_⟩
      · intro g e' hge
        rw [hsF, Function.update_apply] at hge
        rw [hsC]
        by_cases hg : g = id
        · rw [if_pos hg] at hge
          have he' : e' = e := by
            injection hge with hh
            omega
          rw [hg, hc_id, he']
        · rw [if_neg hg] at hge
          rw [hc_other g hg]
          exact inv1 g e' hge
      · intro g hge
        rw [hsF, Function.update_apply] at hge
        rw [hsC]
        by_cases hg : g = id
        · rw [if_pos hg] at hge
          exact Option.noConfusion hge
        · rw [if_neg hg] at hge
          rw [hc_other g hg]
          exact inv2 g hge
      · intro g hge
        rw [hsN] at hge
        rw [hsF, Function.update_apply]
        by_cases hg : g = id
        · rw [hg] at hge
          exact absurd (inv3 id hge) (by rw [hd]; exact fun hh => Option.noConfusion hh)
        · rw [if_neg hg]
          exact inv3 g hge
      · rw [hsLog]
        exact inv4
      · intro g hge
        rw [hsLog] at hge
        have h := inv5 g hge
        rw [hsF, Function.update_apply, hsN]
        by_cases hg : g = id
        · rw [hg] at h
          rw [hd] at h
          exact absurd h.1 (fun hh => Option.noConfusion hh)
        · rw [if_neg hg]
          exact h

theorem close_preserves_inv (s : PState) (fd : Int) (hInv : Inv s) : Inv (close s fd) := by
  by_cases hnull : process_get_file s fd = .null
  · rw [close_of_null s fd hnull]
    exact hInv
  · by_cases hlow :
        process_get_file s fd = .stdin ∨ process_get_file s fd = .stdout ∨ fd ≤ 1
    · obtain ⟨hT, hF, hL, hN, _, hLim⟩ := close_counters_only s fd hnull hlow
      exact inv_congr s (close s fd) hT hLim hF hN hL hInv
    · push_neg at hlow
      obtain ⟨hns, hno, hfd⟩ := hlow
      cases hget : process_get_file s fd with
      | null => exact absurd hget hnull
      | stdin => exact absurd hget hns
      | stdout => exact absurd hget hno
      | handle id =>
          rw [close_handle_eq s fd id hget (by omega)]
          exact clear_closeHeap_inv s fd id ⟨hInv.1, hInv.2.1, hInv.2.2.1,
            hInv.2.2.2.1, hInv.2.2.2.2⟩ hget

/-! ### Characterization of `dup2` and its invariant preservation -/

theorem closeHeap_none (s : PState) (id : Nat) (h : s.files id = none) :
    closeHeap s id = s := by
  unfold closeHeap
  rw [h]

theorem closeHeap_fdTable (s : PState) (id : Nat) :
    (closeHeap s id).fdTable = s.fdTable := by
  unfold closeHeap
  cases hX : s.files id with
  | none => rfl
  | some d => cases d <;> rfl

theorem closeHeap_limit (s : PState) (id : Nat) :
    (closeHeap s id).limit = s.limit := by
  unfold closeHeap
  cases hX : s.files id with
  | none => rfl
  | some d => cases d <;> rfl

theorem closeHeap_fdIdx (s : PState) (id : Nat) :
    (closeHeap s id).fdIdx = s.fdIdx := by
  unfold closeHeap
  cases hX : s.files id with
  | none => rfl
  | some d => cases d <;> rfl

theorem dup2_eq_null (s : PState) (oldfd newfd : Int)
    (h : process_get_file s oldfd = .null) : dup2 s oldfd newfd = (s, -1) := by
  simp [dup2, h]

theorem dup2_eq_self (s : PState) (oldfd newfd : Int)
    (h : process_get_file s oldfd ≠ .null) (he : oldfd = newfd) :
    dup2 s oldfd newfd = (s, newfd) := by
  subst he
  simp [dup2, h]

theorem dup2_eq_main (s : PState) (oldfd newfd : Int)
    (h : process_get_file s oldfd ≠ .null) (he : oldfd ≠ newfd) :
    dup2 s oldfd newfd =
      ({ close (dupBump s (process_get_file s oldfd)) newfd with
          fdTable := Function.update
            (close (dupBump s (process_get_file s oldfd)) newfd).fdTable newfd
            (process_get_file s oldfd) }, newfd) := by
  simp [dup2, h, he]

/-- After `close fd` with `2 ≤ fd` in range, slot `fd` never holds a real
handle (it is cleared for handles and left as a sentinel or null
otherwise). -/
theorem close_slot_not_handle (s : PState) (fd : Int)
    (h2 : 2 ≤ fd) (hl : fd < (s.limit : Int)) (g : Nat) :
    (close s fd).fdTable fd ≠ .handle g := by
  cases hget : process_get_file s fd with
  | null =>
      rw [close_of_null s fd hget]
      unfold process_get_file at hget
      rw [if_pos ⟨by omega, hl⟩] at hget
      rw [hget]
      simp
  | stdin =>
      obtain ⟨hT, -⟩ := close_counters_only s fd (by rw [hget]; simp) (Or.inl hget)
      rw [hT]
      obtain ⟨-, -, ht⟩ := get_bounds s fd .stdin hget (by simp)
      rw [ht]
      simp
  | stdout =>
      obtain ⟨hT, -⟩ := close_counters_only s fd (by rw [hget]; simp) (Or.inr (Or.inl hget))
      rw [hT]
      obtain ⟨-, -, ht⟩ := get_bounds s fd .stdout hget (by simp)
      rw [ht]
      simp
  | handle id =>
      rw [close_handle_eq s fd id hget h2, closeHeap_fdTable]
      obtain ⟨h0, -, -⟩ := get_bounds s fd (.handle id) hget (by simp)
      rw [process_close_file_inb s fd h0 hl]
      show Function.update s.fdTable fd .null fd ≠ .handle g
      rw [Function.update_same]
      simp

/-- Overwriting an in-range slot that does not hold a real handle with a
non-handle entry preserves the invariant. -/
theorem inv_update_nonhandle (s : PState) (fd : Int) (e : FDEntry) (hInv : Inv s)
    (h0 : 0 ≤ fd) (hl : fd < (s.limit : Int))
    (hold : ∀ g, s.fdTable fd ≠ .handle g) (hnew : ∀ g, e ≠ .handle g) :
    Inv { s with fdTable := Function.update s.fdTable fd e } := by
  obtain ⟨inv1, inv2, inv3, inv4, inv5⟩ := hInv
  have hcnt : ∀ g, slotCountF (Function.update s.fdTable fd e) s.limit g = slotCount s g := by
    intro g
    have h := slotCountF_update s.fdTable s.limit fd e g h0 hl
    rw [if_neg (hold g), if_neg (hnew g)] at h
    unfold slotCount
    omega
  exact ⟨fun g d hg => by unfold slotCount; rw [show ({ s with
      fdTable := Function.update s.fdTable fd e } : PState).fdTable
      = Function.update s.fdTable fd e from rfl, hcnt g]; exact inv1 g d hg,
    fun g hg => by unfold slotCount; rw [show ({ s with
      fdTable := Function.update s.fdTable fd e } : PState).fdTable
      = Function.update s.fdTable fd e from rfl, hcnt g]; exact inv2 g hg,
    inv3, inv4, inv5⟩

/-- Adding one alias: bump the `dupCount` of live file `h` and point a
fresh (non-handle) slot at it. -/
theorem inv_add_alias (s : PState) (newfd : Int) (h d : Nat)
    (hInv : Inv s) (hd : s.files h = some d)
    (h0 : 0 ≤ newfd) (hl : newfd < (s.limit : Int))
    (hslot : ∀ g, s.fdTable newfd ≠ .handle g) :
    Inv { s with
          files := Function.update s.files h (some (d + 1))
          fdTable := Function.update s.fdTable newfd (.handle h) } := by
  obtain ⟨inv1, inv2, inv3, inv4, inv5⟩ := hInv
  have hhd : slotCount s h = d + 1 := inv1 h d hd
  have hhlt : h < s.nextId := by
    by_contra hge
    have hx := inv3 h (by omega)
    rw [hd] at hx
    exact Option.noConfusion hx
  have hcnt_h : slotCountF (Function.update s.fdTable newfd (.handle h)) s.limit h
      = d + 2 := by
    have hx := slotCountF_update s.fdTable s.limit newfd (.handle h) h h0 hl
    rw [if_neg (hslot h), if_pos rfl] at hx
    unfold slotCount at hhd
    omega
  have hcnt_o : ∀ g, g ≠ h →
      slotCountF (Function.update s.fdTable newfd (.handle h)) s.limit g
        = slotCount s g := by
    intro g hg
    have hx := slotCountF_update s.fdTable s.limit newfd (.handle h) g h0 hl
    have hne : ¬(FDEntry.handle h = FDEntry.handle g) := by
      simp only [FDEntry.handle.injEq]
      exact fun hh => hg hh.symm
    rw [if_neg (hslot g), if_neg hne] at hx
    unfold slotCount
    omega
  refine ⟨?_, ?_, ?_, inv4, ?_⟩
  · intro g e hge
    have hge2 : Function.update s.files h (some (d + 1)) g = some e := hge
    show slotCountF (Function.update s.fdTable newfd (.handle h)) s.limit g = e + 1
    rw [Function.update_apply] at hge2
    by_cases hg : g = h
    · rw [if_pos hg] at hge2
      have he : e = d + 1 := by
        injection hge2 with hh
        omega
      rw [hg, he, hcnt_h]
    · rw [if_neg hg] at hge2
      rw [hcnt_o g hg]
      exact inv1 g e hge2
  · intro g hge
    have hge2 : Function.update s.files h (some (d + 1)) g = none := hge
    show slotCountF (Function.update s.fdTable newfd (.handle h)) s.limit g = 0
    rw [Function.update_apply] at hge2
    by_cases hg : g = h
    · rw [if_pos hg] at hge2
      exact Option.noConfusion hge2
    · rw [if_neg hg] at hge2
      rw [hcnt_o g hg]
      exact inv2 g hge2
  · intro g hge
    have hge2 : s.nextId ≤ g := hge
    show Function.update s.files h (some (d + 1)) g = none
    rw [Function.update_apply]
    by_cases hg : g = h
    · exfalso
      omega
    · rw [if_neg hg]
      exact inv3 g hge2
  · intro g hge
    have hge2 : g ∈ s.closedLog := hge
    have hx := inv5 g hge2
    refine ⟨?_, hx.2⟩
    show Function.update s.files h (some (d + 1)) g = none
    rw [Function.update_apply]
    by_cases hg : g = h
    · exfalso
      have h1 := hx.1
      rw [hg, hd] at h1
      exact Option.noConfusion h1
    · rw [if_neg hg]
      exact hx.1

/-- Moving an alias onto a slot that held the same handle `h`: the net
effect of `dup2(a, b)` when slot `b` already pointed at `h`. -/
theorem inv_realias_same (s : PState) (newfd : Int) (h d : Nat)
    (hInv : Inv s) (hd : s.files h = some d)
    (h0 : 0 ≤ newfd) (hl : newfd < (s.limit : Int))
    (hslot : s.fdTable newfd = .handle h) :
    Inv { s with
          files := Function.update s.files h (some d)
          fdTable := Function.update s.fdTable newfd (.handle h) } := by
  obtain ⟨inv1, inv2, inv3, inv4, inv5⟩ := hInv
  have hcnt : ∀ g, slotCountF (Function.update s.fdTable newfd (.handle h)) s.limit g
      = slotCount s g := by
    intro g
    have hx := slotCountF_update s.fdTable s.limit newfd (.handle h) g h0 hl
    rw [hslot] at hx
    unfold slotCount
    omega
  refine ⟨?_, ?_, ?_, inv4, ?_⟩
  · intro g e hge
    have hge2 : Function.update s.files h (some d) g = some e := hge
    show slotCountF (Function.update s.fdTable newfd (.handle h)) s.limit g = e + 1
    rw [hcnt g]
    rw [Function.update_apply] at hge2
    by_cases hg : g = h
    · rw [if_pos hg] at hge2
      have he : e = d := by
        injection hge2 with hh
        omega
      rw [hg, he]
      exact inv1 h d hd
    · rw [if_neg hg] at hge2
      exact inv1 g e hge2
  · intro g hge
    have hge2 : Function.update s.files h (some d) g = none := hge
    show slotCountF (Function.update s.fdTable newfd (.handle h)) s.limit g = 0
    rw [hcnt g]
    rw [Function.update_apply] at hge2
    by_cases hg : g = h
    · rw [if_pos hg] at hge2
      exact Option.noConfusion hge2
    · rw [if_neg hg] at hge2
      exact inv2 g hge2
  · intro g hge
    have hge2 : s.nextId ≤ g := hge
    show Function.update s.files h (some d) g = none
    rw [Function.update_apply]
    by_cases hg : g = h
    · exfalso
      have hx := inv3 g hge2
      rw [hg, hd] at hx
      exact Option.noConfusion hx
    · rw [if_neg hg]
      exact inv3 g hge2
  · intro g hge
    have hge2 : g ∈ s.closedLog := hge
    have hx := inv5 g hge2
    refine ⟨?_, hx.2⟩
    show Function.update s.files h (some d) g = none
    rw [Function.update_apply]
    by_cases hg : g = h
    · exfalso
      have h1 := hx.1
      rw [hg, hd] at h1
      exact Option.noConfusion h1
    · rw [if_neg hg]
      exact hx.1

/-- `dup2(a, b)` when slot `b` held handle `g` (≠ `h`) whose `dupCount`
was 0: `g` is released and logged, `h` gains the alias. -/
theorem inv_move_alias_free (s : PState) (newfd : Int) (h d g : Nat)
    (hInv : Inv s) (hd : s.files h = some d) (hg : s.files g = some 0)
    (hgh : g ≠ h)
    (h0 : 0 ≤ newfd) (hl : newfd < (s.limit : Int))
    (hslot : s.fdTable newfd = .handle g) :
    Inv { s with
          files := Function.update (Function.update s.files h (some (d + 1))) g none
          fdTable := Function.update s.fdTable newfd (.handle h)
          closedLog := g :: s.closedLog } := by
  obtain ⟨inv1, inv2, inv3, inv4, inv5⟩ := hInv
  have hhd : slotCount s h = d + 1 := inv1 h d hd
  have hgd : slotCount s g = 1 := inv1 g 0 hg
  have hhlt : h < s.nextId := by
    by_contra hge
    have hx := inv3 h (by omega)
    rw [hd] at hx
    exact Option.noConfusion hx
  have hglt : g < s.nextId := by
    by_contra hge
    have hx := inv3 g (by omega)
    rw [hg] at hx
    exact Option.noConfusion hx
  have hglog : g ∉ s.closedLog := by
    intro hmem
    have hx := (inv5 g hmem).1
    rw [hg] at hx
    exact Option.noConfusion hx
  have hne_gh : ¬(FDEntry.handle g = FDEntry.handle h) := by
    simp only [FDEntry.handle.injEq]
    exact hgh
  have hcnt_h : slotCountF (Function.update s.fdTable newfd (.handle h)) s.limit h
      = d + 2 := by
    have hx := slotCountF_update s.fdTable s.limit newfd (.handle h) h h0 hl
    rw [hslot, if_neg hne_gh, if_pos rfl] at hx
    unfold slotCount at hhd
    omega
  have hcnt_g : slotCountF (Function.update s.fdTable newfd (.handle h)) s.limit g
      = 0 := by
    have hx := slotCountF_update s.fdTable s.limit newfd (.handle h) g h0 hl
    have hne_hg : ¬(FDEntry.handle h = FDEntry.handle g) := by
      simp only [FDEntry.handle.injEq]
      exact fun hh => hgh hh.symm
    rw [hslot, if_pos rfl, if_neg hne_hg] at hx
    unfold slotCount at hgd
    omega
  have hcnt_o : ∀ x, x ≠ h → x ≠ g →
      slotCountF (Function.update s.fdTable newfd (.handle h)) s.limit x
        = slotCount s x := by
    intro x hxh hxg
    have hx := slotCountF_update s.fdTable s.limit newfd (.handle h) x h0 hl
    have h1 : ¬(FDEntry.handle g = FDEntry.handle x) := by
      simp only [FDEntry.handle.injEq]
      exact fun hh => hxg hh.symm
    have h2 : ¬(FDEntry.handle h = FDEntry.handle x) := by
      simp only [FDEntry.handle.injEq]
      exact fun hh => hxh hh.symm
    rw [hslot, if_neg h1, if_neg h2] at hx
    unfold slotCount
    omega
  refine ⟨?_, ?_, ?_, ?_, ?_⟩
  · intro x v hxv
    have hx2 : Function.update (Function.update s.files h (some (d + 1))) g none x
        = some v := hxv
    show slotCountF (Function.update s.fdTable newfd (.handle h)) s.limit x = v + 1
    rw [Function.update_apply, Function.update_apply] at hx2
    by_cases hxg : x = g
    · rw [if_pos hxg] at hx2
      exact Option.noConfusion hx2
    · rw [if_neg hxg] at hx2
      by_cases hxh : x = h
      · rw [if_pos hxh] at hx2
        have hv : v = d + 1 := by
          injection hx2 with hh
          omega
        rw [hxh, hv, hcnt_h]
      · rw [if_neg hxh] at hx2
        rw [hcnt_o x hxh hxg]
        exact inv1 x v hx2
  · intro x hxv
    have hx2 : Function.update (Function.update s.files h (some (d + 1))) g none x
        = none := hxv
    show slotCountF (Function.update s.fdTable newfd (.handle h)) s.limit x = 0
    rw [Function.update_apply, Function.update_apply] at hx2
    by_cases hxg : x = g
    · rw [hxg, hcnt_g]
    · rw [if_neg hxg] at hx2
      by_cases hxh : x = h
      · rw [if_pos hxh] at hx2
        exact Option.noConfusion hx2
      · rw [if_neg hxh] at hx2
        rw [hcnt_o x hxh hxg]
        exact inv2 x hx2
  · intro x hx
    have hx2 : s.nextId ≤ x := hx
    show Function.update (Function.update s.files h (some (d + 1))) g none x = none
    rw [Function.update_apply, Function.update_apply]
    by_cases hxg : x = g
    · rw [if_pos hxg]
    · rw [if_neg hxg]
      by_cases hxh : x = h
      · exfalso
        omega
      · rw [if_neg hxh]
        exact inv3 x hx2
  · show (g :: s.closedLog).Nodup
    exact List.nodup_cons.mpr ⟨hglog, inv4⟩
  · intro x hx
    have hx2 : x ∈ g :: s.closedLog := hx
    refine ⟨?_, ?_⟩
    · show Function.update (Function.update s.files h (some (d + 1))) g none x = none
      rw [Function.update_apply, Function.update_apply]
      rcases List.mem_cons.mp hx2 with rfl | hxmem
      · rw [if_pos rfl]
      · have hy := inv5 x hxmem
        by_cases hxg : x = g
        · rw [if_pos hxg]
        · rw [if_neg hxg]
          by_cases hxh : x = h
          · exfalso
            have h1 := hy.1
            rw [hxh, hd] at h1
            exact Option.noConfusion h1
          · rw [if_neg hxh]
            exact hy.1
    · show x < s.nextId
      rcases List.mem_cons.mp hx2 with rfl | hxmem
      · exact hglt
      · exact (inv5 x hxmem).2

/-- `dup2(a, b)` when slot `b` held handle `g` (≠ `h`) with a positive
`dupCount`: `g` loses one alias, `h` gains one. -/
theorem inv_move_alias_dec (s : PState) (newfd : Int) (h d g e : Nat)
    (hInv : Inv s) (hd : s.files h = some d) (hg : s.files g = some (e + 1))
    (hgh : g ≠ h)
    (h0 : 0 ≤ newfd) (hl : newfd < (s.limit : Int))
    (hslot : s.fdTable newfd = .handle g) :
    Inv { s with
          files := Function.update (Function.update s.files h (some (d + 1))) g (some e)
          fdTable := Function.update s.fdTable newfd (.handle h) } := by
  obtain ⟨inv1, inv2, inv3, inv4, inv5⟩ := hInv
  have hhd : slotCount s h = d + 1 := inv1 h d hd
  have hgd : slotCount s g = e + 2 := inv1 g (e + 1) hg
  have hhlt : h < s.nextId := by
    by_contra hge
    have hx := inv3 h (by omega)
    rw [hd] at hx
    exact Option.noConfusion hx
  have hne_gh : ¬(FDEntry.handle g = FDEntry.handle h) := by
    simp only [FDEntry.handle.injEq]
    exact hgh
  have hcnt_h : slotCountF (Function.update s.fdTable newfd (.handle h)) s.limit h
      = d + 2 := by
    have hx := slotCountF_update s.fdTable s.limit newfd (.handle h) h h0 hl
    rw [hslot, if_neg hne_gh, if_pos rfl] at hx
    unfold slotCount at hhd
    omega
  have hcnt_g : slotCountF (Function.update s.fdTable newfd (.handle h)) s.limit g
      = e + 1 := by
    have hx := slotCountF_update s.fdTable s.limit newfd (.handle h) g h0 hl
    have hne_hg : ¬(FDEntry.handle h = FDEntry.handle g) := by
      simp only [FDEntry.handle.injEq]
      exact fun hh => hgh hh.symm
    rw [hslot, if_pos rfl, if_neg hne_hg] at hx
    unfold slotCount at hgd
    omega
  have hcnt_o : ∀ x, x ≠ h → x ≠ g →
      slotCountF (Function.update s.fdTable newfd (.handle h)) s.limit x
        = slotCount s x := by
    intro x hxh hxg
    have hx := slotCountF_update s.fdTable s.limit newfd (.handle h) x h0 hl
    have h1 : ¬(FDEntry.handle g = FDEntry.handle x) := by
      simp only [FDEntry.handle.injEq]
      exact fun hh => hxg hh.symm
    have h2 : ¬(FDEntry.handle h = FDEntry.handle x) := by
      simp only [FDEntry.handle.injEq]
      exact fun hh => hxh hh.symm
    rw [hslot, if_neg h1, if_neg h2] at hx
    unfold slotCount
    omega
  refine ⟨?_, ?_, ?_, inv4, ?_⟩
  · intro x v hxv
    have hx2 : Function.update (Function.update s.files h (some (d + 1))) g (some e) x
        = some v := hxv
    show slotCountF (Function.update s.fdTable newfd (.handle h)) s.limit x = v + 1
    rw [Function.update_apply, Function.update_apply] at hx2
    by_cases hxg : x = g
    · rw [if_pos hxg] at hx2
      have hv : v = e := by
        injection hx2 with hh
        omega
      rw [hxg, hv, hcnt_g]
    · rw [if_neg hxg] at hx2
      by_cases hxh : x = h
      · rw [if_pos hxh] at hx2
        have hv : v = d + 1 := by
          injection hx2 with hh
          omega
        rw [hxh, hv, hcnt_h]
      · rw [if_neg hxh] at hx2
        rw [hcnt_o x hxh hxg]
        exact inv1 x v hx2
  · intro x hxv
    have hx2 : Function.update (Function.update s.files h (some (d + 1))) g (some e) x
        = none := hxv
    show slotCountF (Function.update s.fdTable newfd (.handle h)) s.limit x = 0
    rw [Function.update_apply, Function.update_apply] at hx2
    by_cases hxg : x = g
    · rw [if_pos hxg] at hx2
      exact Option.noConfusion hx2
    · rw [if_neg hxg] at hx2
      by_cases hxh : x = h
      · rw [if_pos hxh] at hx2
        exact Option.noConfusion hx2
      · rw [if_neg hxh] at hx2
        rw [hcnt_o x hxh hxg]
        exact inv2 x hx2
  · intro x hx
    have hx2 : s.nextId ≤ x := hx
    show Function.update (Function.update s.files h (some (d + 1))) g (some e) x = none
    rw [Function.update_apply, Function.update_apply]
    by_cases hxg : x = g
    · exfalso
      have hy := inv3 x hx2
      rw [hxg, hg] at hy
      exact Option.noConfusion hy
    · rw [if_neg hxg]
      by_cases hxh : x = h
      · exfalso
        omega
      · rw [if_neg hxh]
        exact inv3 x hx2
  · intro x hx
    have hx2 : x ∈ s.closedLog := hx
    have hy := inv5 x hx2
    refine ⟨?_, hy.2⟩
    show Function.update (Function.update s.files h (some (d + 1))) g (some e) x = none
    rw [Function.update_apply, Function.update_apply]
    by_cases hxg : x = g
    · exfalso
      have h1 := hy.1
      rw [hxg, hg] at h1
      exact Option.noConfusion h1
    · rw [if_neg hxg]
      by_cases hxh : x = h
      · exfalso
        have h1 := hy.1
        rw [hxh, hd] at h1
        exact Option.noConfusion h1
      · rw [if_neg hxh]
        exact hy.1

theorem process_close_file_limit (s : PState) (fd : Int) :
    (process_close_file s fd).limit = s.limit := by
  unfold process_close_file
  split <;> rfl

theorem close_limit (s : PState) (fd : Int) : (close s fd).limit = s.limit := by
  by_cases h1 : process_get_file s fd = .null
  · rw [close_of_null s fd h1]
  · by_cases h2 :
        process_get_file s fd = .stdin ∨ process_get_file s fd = .stdout ∨ fd ≤ 1
    · exact (close_counters_only s fd h1 h2).2.2.2.2.2
    · push_neg at h2
      obtain ⟨hns, hno, hfd⟩ := h2
      cases hget : process_get_file s fd with
      | null => exact absurd hget h1
      | stdin => exact absurd hget hns
      | stdout => exact absurd hget hno
      | handle id =>
          rw [close_handle_eq s fd id hget (by omega), closeHeap_limit,
            process_close_file_limit]

theorem dup2_preserves_inv (s : PState) (oldfd newfd : Int) (hInv : Inv s)
    (hb2 : 2 ≤ newfd) (hbl : newfd < (s.limit : Int)) :
    Inv (dup2 s oldfd newfd).1 := by
  by_cases hnull : process_get_file s oldfd = .null
  · rw [dup2_eq_null s oldfd newfd hnull]
    exact hInv
  by_cases he : oldfd = newfd
  · rw [dup2_eq_self s oldfd newfd hnull he]
    exact hInv
  rw [dup2_eq_main s oldfd newfd hnull he]
  cases hget : process_get_file s oldfd with
  | null => exact absurd hget hnull
  | stdin =>
      have hInv1 : Inv (dupBump s .stdin) :=
        inv_congr s (dupBump s .stdin) rfl rfl rfl rfl rfl hInv
      have hInv2 : Inv (close (dupBump s .stdin) newfd) :=
        close_preserves_inv (dupBump s .stdin) newfd hInv1
      refine inv_update_nonhandle (close (dupBump s .stdin) newfd) newfd .stdin hInv2
        (by omega) ?_ ?_ ?_
      · rw [close_limit]
        exact hbl
      · exact close_slot_not_handle (dupBump s .stdin) newfd hb2 hbl
      · intro g
        simp
  | stdout =>
      have hInv1 : Inv (dupBump s .stdout) :=
        inv_congr s (dupBump s .stdout) rfl rfl rfl rfl rfl hInv
      have hInv2 : Inv (close (dupBump s .stdout) newfd) :=
        close_preserves_inv (dupBump s .stdout) newfd hInv1
      refine inv_update_nonhandle (close (dupBump s .stdout) newfd) newfd .stdout hInv2
        (by omega) ?_ ?_ ?_
      · rw [close_limit]
        exact hbl
      · exact close_slot_not_handle (dupBump s .stdout) newfd hb2 hbl
      · intro g
        simp
  | handle h =>
      obtain ⟨ho0, hol, hot⟩ := get_bounds s oldfd (.handle h) hget (by simp)
      have hpos : 1 ≤ slotCount s h := slotCountF_pos s.fdTable s.limit h oldfd ho0 hol hot
      obtain ⟨d, hd⟩ : ∃ d, s.files h = some d := by
        cases hfid : s.files h with
        | none =>
            have := hInv.2.1 h hfid
            omega
        | some d => exact ⟨d, rfl⟩
      have hsb : dupBump s (.handle h)
          = { s with files := Function.update s.files h (some (d + 1)) } := by
        simp [dupBump, bumpDup, hd]
      rw [hsb]
      have hgetn : process_get_file
          { s with files := Function.update s.files h (some (d + 1)) } newfd
          = s.fdTable newfd := by
        unfold process_get_file
        rw [if_pos ⟨by omega, hbl⟩]
      cases hE : s.fdTable newfd with
      | null =>
          rw [close_of_null _ newfd (by rw [hgetn, hE])]
          exact inv_add_alias s newfd h d hInv hd (by omega) hbl (by rw [hE]; simp)
      | stdin =>
          have hgs : process_get_file
              { s with files := Function.update s.files h (some (d + 1)) } newfd
              = .stdin := by rw [hgetn, hE]
          obtain ⟨hT, hF, hL, hN, hI, hLim⟩ :=
            close_counters_only _ newfd (by rw [hgs]; simp) (Or.inl hgs)
          refine inv_congr _ _ ?_ ?_ ?_ ?_ ?_
            (inv_add_alias s newfd h d hInv hd (by omega) hbl (by rw [hE]; simp))
          · show Function.update
                (close { s with files := Function.update s.files h (some (d + 1)) }
                  newfd).fdTable newfd (.handle h) = _
            rw [hT]
          · show (close { s with files := Function.update s.files h (some (d + 1)) }
                newfd).limit = _
            rw [hLim]
          · show (close { s with files := Function.update s.files h (some (d + 1)) }
                newfd).files = _
            rw [hF]
          · show (close { s with files := Function.update s.files h (some (d + 1)) }
                newfd).nextId = _
            rw [hN]
          · show (close { s with files := Function.update s.files h (some (d + 1)) }
                newfd).closedLog = _
            rw [hL]
      | stdout =>
          have hgs : process_get_file
              { s with files := Function.update s.files h (some (d + 1)) } newfd
              = .stdout := by rw [hgetn, hE]
          obtain ⟨hT, hF, hL, hN, hI, hLim⟩ :=
            close_counters_only _ newfd (by rw [hgs]; simp) (Or.inr (Or.inl hgs))
          refine inv_congr _ _ ?_ ?_ ?_ ?_ ?_
            (inv_add_alias s newfd h d hInv hd (by omega) hbl (by rw [hE]; simp))
          · show Function.update
                (close { s with files := Function.update s.files h (some (d + 1)) }
                  newfd).fdTable newfd (.handle h) = _
            rw [hT]
          · show (close { s with files := Function.update s.files h (some (d + 1)) }
                newfd).limit = _
            rw [hLim]
          · show (close { s with files := Function.update s.files h (some (d + 1)) }
                newfd).files = _
            rw [hF]
          · show (close { s with files := Function.update s.files h (some (d + 1)) }
                newfd).nextId = _
            rw [hN]
          · show (close { s with files := Function.update s.files h (some (d + 1)) }
                newfd).closedLog = _
            rw [hL]
      | handle g =>
          have hgs : process_get_file
              { s with files := Function.update s.files h (some (d + 1)) } newfd
              = .handle g := by rw [hgetn, hE]
          rw [close_handle_eq _ newfd g hgs hb2]
          have hpcf := process_close_file_inb
            { s with files := Function.update s.files h (some (d + 1)) } newfd
            (by omega) hbl
          by_cases hgh : g = h
          · subst hgh
            rw [closeHeap_some_succ
              (process_close_file
                { s with files := Function.update s.files g (some (d + 1)) } newfd)
              g d (by
                rw [hpcf]
                show Function.update s.files g (some (d + 1)) g = some (d + 1)
                rw [Function.update_same])]
            refine inv_congr _ _ ?_ ?_ ?_ ?_ ?_
              (inv_realias_same s newfd g d hInv hd (by omega) hbl hE)
            · show Function.update
                  (process_close_file
                    { s with files := Function.update s.files g (some (d + 1)) }
                    newfd).fdTable newfd (.handle g) = _
              rw [hpcf]
              show Function.update (Function.update s.fdTable newfd .null) newfd
                (.handle g) = _
              rw [Function.update_idem]
            · show (process_close_file
                  { s with files := Function.update s.files g (some (d + 1)) }
                  newfd).limit = _
              rw [hpcf]
            · show Function.update
                  (process_close_file
                    { s with files := Function.update s.files g (some (d + 1)) }
                    newfd).files g (some d) = _
              rw [hpcf]
              show Function.update (Function.update s.files g (some (d + 1))) g
                (some d) = _
              rw [Function.update_idem]
            · show (process_close_file
                  { s with files := Function.update s.files g (some (d + 1)) }
                  newfd).nextId = _
              rw [hpcf]
            · show (process_close_file
                  { s with files := Function.update s.files g (some (d + 1)) }
                  newfd).closedLog = _
              rw [hpcf]
          · have hPg : (process_close_file
                { s with files := Function.update s.files h (some (d + 1)) }
                newfd).files g = s.files g := by
              rw [hpcf]
              show Function.update s.files h (some (d + 1)) g = s.files g
              rw [Function.update_noteq hgh]
            have hgpos : 1 ≤ slotCount s g :=
              slotCountF_pos s.fdTable s.limit g newfd (by omega) hbl hE
            obtain ⟨eg, hgeq⟩ : ∃ eg, s.files g = some eg := by
              cases hfg : s.files g with
              | none =>
                  have := hInv.2.1 g hfg
                  omega
              | some eg => exact ⟨eg, rfl⟩
            cases eg with
            | zero =>
                rw [closeHeap_some_zero
                  (process_close_file
                    { s with files := Function.update s.files h (some (d + 1)) }
                    newfd) g (by rw [hPg]; exact hgeq)]
                refine inv_congr _ _ ?_ ?_ ?_ ?_ ?_
                  (inv_move_alias_free s newfd h d g hInv hd hgeq hgh (by omega) hbl hE)
                · show Function.update
                      (process_close_file
                        { s with files := Function.update s.files h (some (d + 1)) }
                        newfd).fdTable newfd (.handle h) = _
                  rw [hpcf]
                  show Function.update (Function.update s.fdTable newfd .null) newfd
                    (.handle h) = _
                  rw [Function.update_idem]
                · show (process_close_file
                      { s with files := Function.update s.files h (some (d + 1)) }
                      newfd).limit = _
                  rw [hpcf]
                · show Function.update
                      (process_close_file
                        { s with files := Function.update s.files h (some (d + 1)) }
                        newfd).files g none = _
                  rw [hpcf]
                · show (process_close_file
                      { s with files := Function.update s.files h (some (d + 1)) }
                      newfd).nextId = _
                  rw [hpcf]
                · show g :: (process_close_file
                      { s with files := Function.update s.files h (some (d + 1)) }
                      newfd).closedLog = _
                  rw [hpcf]
            | succ e' =>
                rw [closeHeap_some_succ
                  (process_close_file
                    { s with files := Function.update s.files h (some (d + 1)) }
                    newfd) g e' (by rw [hPg]; exact hgeq)]
                refine inv_congr _ _ ?_ ?_ ?_ ?_ ?_
                  (inv_move_alias_dec s newfd h d g e' hInv hd hgeq hgh (by omega) hbl hE)
                · show Function.update
                      (process_close_file
                        { s with files := Function.update s.files h (some (d + 1)) }
                        newfd).fdTable newfd (.handle h) = _
                  rw [hpcf]
                  show Function.update (Function.update s.fdTable newfd .null) newfd
                    (.handle h) = _
                  rw [Function.update_idem]
                · show (process_close_file
                      { s with files := Function.update s.files h (some (d + 1)) }
                      newfd).limit = _
                  rw [hpcf]
                · show Function.update
                      (process_close_file
                        { s with files := Function.update s.files h (some (d + 1)) }
                        newfd).files g (some e') = _
                  rw [hpcf]
                · show (process_close_file
                      { s with files := Function.update s.files h (some (d + 1)) }
                      newfd).nextId = _
                  rw [hpcf]
                · show (process_close_file
                      { s with files := Function.update s.files h (some (d + 1)) }
                      newfd).closedLog = _
                  rw [hpcf]

/-! ### Characterization of `process_add_file` and `sys_open` -/

theorem process_add_file_full (s : PState) (f : FDEntry)
    (hj : s.limit ≤ scanFrom s.fdTable s.limit s.fdIdx) :
    process_add_file s f = ({ s with fdIdx := scanFrom s.fdTable s.limit s.fdIdx }, -1) := by
  unfold process_add_file
  rw [if_pos hj]

theorem process_add_file_store (s : PState) (f : FDEntry)
    (hj : scanFrom s.fdTable s.limit s.fdIdx < s.limit) :
    process_add_file s f =
      ({ s with
          fdIdx := scanFrom s.fdTable s.limit s.fdIdx
          fdTable := Function.update s.fdTable
            ((scanFrom s.fdTable s.limit s.fdIdx : Nat) : Int) f },
        ((scanFrom s.fdTable s.limit s.fdIdx : Nat) : Int)) := by
  unfold process_add_file
  rw [if_neg (by omega)]

theorem sys_open_full_eq (s : PState)
    (hj : s.limit ≤ scanFrom s.fdTable s.limit s.fdIdx) :
    sys_open s true =
      (file_close
        { s with
          nextId := s.nextId + 1
          files := Function.update s.files s.nextId (some 0)
          fdIdx := scanFrom s.fdTable s.limit s.fdIdx } s.nextId, -1) := by
  simp [sys_open, process_add_file, hj]

theorem sys_open_store_eq (s : PState)
    (hj : scanFrom s.fdTable s.limit s.fdIdx < s.limit) :
    sys_open s true =
      ({ s with
          nextId := s.nextId + 1
          files := Function.update s.files s.nextId (some 0)
          fdIdx := scanFrom s.fdTable s.limit s.fdIdx
          fdTable := Function.update s.fdTable
            ((scanFrom s.fdTable s.limit s.fdIdx : Nat) : Int) (.handle s.nextId) },
        ((scanFrom s.fdTable s.limit s.fdIdx : Nat) : Int)) := by
  have hnle : ¬s.limit ≤ scanFrom s.fdTable s.limit s.fdIdx := by omega
  have hne : ((scanFrom s.fdTable s.limit s.fdIdx : Nat) : Int) ≠ -1 := by omega
  simp [sys_open, process_add_file, hnle, hne]

theorem sys_open_preserves_inv (s : PState) (ok : Bool) (hInv : Inv s) :
    Inv (sys_open s ok).1 := by
  cases ok with
  | false => exact hInv
  | true =>
      obtain ⟨inv1, inv2, inv3, inv4, inv5⟩ := hInv
      have hidnone : s.files s.nextId = none := inv3 s.nextId (Nat.le_refl _)
      have hidcnt : slotCount s s.nextId = 0 := inv2 s.nextId hidnone
      have hidlog : s.nextId ∉ s.closedLog := by
        intro hmem
        have := (inv5 s.nextId hmem).2
        omega
      by_cases hj : s.limit ≤ scanFrom s.fdTable s.limit s.fdIdx
      · rw [sys_open_full_eq s hj]
        refine ⟨?_, ?_, ?_, ?_, ?_⟩
        · intro x v hx
          have hx2 : Function.update (Function.update s.files s.nextId (some 0))
              s.nextId none x = some v := hx
          rw [Function.update_idem, Function.update_apply] at hx2
          show slotCountF s.fdTable s.limit x = v + 1
          by_cases hxi : x = s.nextId
          · rw [if_pos hxi] at hx2
            exact Option.noConfusion hx2
          · rw [if_neg hxi] at hx2
            exact inv1 x v hx2
        · intro x hx
          have hx2 : Function.update (Function.update s.files s.nextId (some 0))
              s.nextId none x = none := hx
          rw [Function.update_idem, Function.update_apply] at hx2
          show slotCountF s.fdTable s.limit x = 0
          by_cases hxi : x = s.nextId
          · rw [hxi]
            exact hidcnt
          · rw [if_neg hxi] at hx2
            exact inv2 x hx2
        · intro x hx
          have hx2 : s.nextId + 1 ≤ x := hx
          show Function.update (Function.update s.files s.nextId (some 0))
              s.nextId none x = none
          rw [Function.update_idem, Function.update_apply]
          by_cases hxi : x = s.nextId
          · omega
          · rw [if_neg hxi]
            exact inv3 x (by omega)
        · show (s.nextId :: s.closedLog).Nodup
          exact List.nodup_cons.mpr ⟨hidlog, inv4⟩
        · intro x hx
          have hx2 : x ∈ s.nextId :: s.closedLog := hx
          constructor
          · show Function.update (Function.update s.files s.nextId (some 0))
                s.nextId none x = none
            rw [Function.update_idem, Function.update_apply]
            rcases List.mem_cons.mp hx2 with rfl | hxmem
            · rw [if_pos rfl]
            · by_cases hxi : x = s.nextId
              · rw [if_pos hxi]
              · rw [if_neg hxi]
                exact (inv5 x hxmem).1
          · show x < s.nextId + 1
            rcases List.mem_cons.mp hx2 with rfl | hxmem
            · omega
            · have := (inv5 x hxmem).2
              omega
      · push_neg at hj
        rw [sys_open_store_eq s hj]
        have hjnull : s.fdTable ((scanFrom s.fdTable s.limit s.fdIdx : Nat) : Int)
            = .null := scanFrom_null s.fdTable s.limit s.fdIdx hj
        have hc_id : slotCountF
            (Function.update s.fdTable ((scanFrom s.fdTable s.limit s.fdIdx : Nat) : Int)
              (.handle s.nextId)) s.limit s.nextId = 1 := by
          have hx := slotCountF_update s.fdTable s.limit
            ((scanFrom s.fdTable s.limit s.fdIdx : Nat) : Int) (.handle s.nextId)
            s.nextId (by omega) (by exact_mod_cast hj)
          rw [hjnull, if_pos rfl] at hx
          simp only [if_neg (by simp : ¬(FDEntry.null = FDEntry.handle s.nextId))] at hx
          unfold slotCount at hidcnt
          omega
        have hc_o : ∀ x, x ≠ s.nextId → slotCountF
            (Function.update s.fdTable ((scanFrom s.fdTable s.limit s.fdIdx : Nat) : Int)
              (.handle s.nextId)) s.limit x = slotCount s x := by
          intro x hxi
          have hx := slotCountF_update s.fdTable s.limit
            ((scanFrom s.fdTable s.limit s.fdIdx : Nat) : Int) (.handle s.nextId)
            x (by omega) (by exact_mod_cast hj)
          have hne : ¬(FDEntry.handle s.nextId = FDEntry.handle x) := by
            simp only [FDEntry.handle.injEq]
            exact fun hh => hxi hh.symm
          rw [hjnull, if_neg hne] at hx
          simp only [if_neg (by simp : ¬(FDEntry.null = FDEntry.handle x))] at hx
          unfold slotCount
          omega
        refine ⟨?_, ?_, ?_, inv4, ?_⟩
        · intro x v hx
          have hx2 : Function.update s.files s.nextId (some 0) x = some v := hx
          rw [Function.update_apply] at hx2
          show slotCountF (Function.update s.fdTable
              ((scanFrom s.fdTable s.limit s.fdIdx : Nat) : Int) (.handle s.nextId))
              s.limit x = v + 1
          by_cases hxi : x = s.nextId
          · rw [if_pos hxi] at hx2
            have hv : v = 0 := by
              injection hx2 with hh
              omega
            rw [hxi, hv, hc_id]
          · rw [if_neg hxi] at hx2
            rw [hc_o x hxi]
            exact inv1 x v hx2
        · intro x hx
          have hx2 : Function.update s.files s.nextId (some 0) x = none := hx
          rw [Function.update_apply] at hx2
          show slotCountF (Function.update s.fdTable
              ((scanFrom s.fdTable s.limit s.fdIdx : Nat) : Int) (.handle s.nextId))
              s.limit x = 0
          by_cases hxi : x = s.nextId
          · rw [if_pos hxi] at hx2
            exact Option.noConfusion hx2
          · rw [if_neg hxi] at hx2
            rw [hc_o x hxi]
            exact inv2 x hx2
        · intro x hx
          have hx2 : s.nextId + 1 ≤ x := hx
          show Function.update s.files s.nextId (some 0) x = none
          rw [Function.update_apply]
          by_cases hxi : x = s.nextId
          · omega
          · rw [if_neg hxi]
            exact inv3 x (by omega)
        · intro x hx
          have hx2 : x ∈ s.closedLog := hx
          have hy := inv5 x hx2
          constructor
          · show Function.update s.files s.nextId (some 0) x = none
            rw [Function.update_apply]
            by_cases hxi : x = s.nextId
            · exfalso
              omega
            · rw [if_neg hxi]
              exact hy.1
          · show x < s.nextId + 1
            omega

/-! ### Further characterization lemmas used by the aliasing claims -/

theorem dupBump_fdTable (s : PState) (e : FDEntry) : (dupBump s e).fdTable = s.fdTable := by
  cases e <;> rfl

theorem dupBump_limit (s : PState) (e : FDEntry) : (dupBump s e).limit = s.limit := by
  cases e <;> rfl

theorem process_close_file_fdTable_ne (s : PState) (fd x : Int) (hx : x ≠ fd) :
    (process_close_file s fd).fdTable x = s.fdTable x := by
  unfold process_close_file
  split
  · show Function.update s.fdTable fd .null x = s.fdTable x
    rw [Function.update_noteq hx]
  · rfl

/-- `close fd` never changes a slot other than `fd`. -/
theorem close_fdTable_ne (s : PState) (fd x : Int) (hx : x ≠ fd) :
    (close s fd).fdTable x = s.fdTable x := by
  by_cases h1 : process_get_file s fd = .null
  · rw [close_of_null s fd h1]
  · by_cases h2 :
        process_get_file s fd = .stdin ∨ process_get_file s fd = .stdout ∨ fd ≤ 1
    · rw [(close_counters_only s fd h1 h2).1]
    · push_neg at h2
      obtain ⟨hns, hno, hfd⟩ := h2
      cases hget : process_get_file s fd with
      | null => exact absurd hget h1
      | stdin => exact absurd hget hns
      | stdout => exact absurd hget hno
      | handle id =>
          rw [close_handle_eq s fd id hget (by omega), closeHeap_fdTable,
            process_close_file_fdTable_ne s fd x hx]

/-- `close` on a real handle at `fd ≥ 2` calls `file_close` — and so logs
a release — exactly when the handle's `dupCount` is zero. -/
theorem close_release_iff (s : PState) (fd : Int) (id : Nat)
    (hget : process_get_file s fd = .handle id) (hfd : 2 ≤ fd) :
    (close s fd).closedLog
      = if s.files id = some 0 then id :: s.closedLog else s.closedLog := by
  obtain ⟨h0, hl, -⟩ := get_bounds s fd (.handle id) hget (by simp)
  have hpcf := process_close_file_inb s fd h0 hl
  have hpF : (process_close_file s fd).files = s.files := by rw [hpcf]
  have hpLog : (process_close_file s fd).closedLog = s.closedLog := by rw [hpcf]
  rw [close_handle_eq s fd id hget hfd]
  cases hfi : s.files id with
  | none =>
      rw [closeHeap_none (process_close_file s fd) id (by rw [hpF]; exact hfi), hpLog,
        if_neg (by simp)]
  | some d =>
      cases d with
      | zero =>
          rw [closeHeap_some_zero (process_close_file s fd) id (by rw [hpF]; exact hfi)]
          rw [if_pos rfl]
          show id :: (process_close_file s fd).closedLog = id :: s.closedLog
          rw [hpLog]
      | succ e =>
          rw [closeHeap_some_succ (process_close_file s fd) id e (by rw [hpF]; exact hfi)]
          rw [if_neg (by simp)]
          show (process_close_file s fd).closedLog = s.closedLog
          rw [hpLog]

theorem slotCountF_eq_zero (t : Int → FDEntry) (limit : Nat) (id : Nat)
    (h : ∀ n, n < limit → t (n : Int) ≠ .handle id) :
    slotCountF t limit id = 0 := by
  unfold slotCountF
  refine Finset.sum_eq_zero fun n hn => ?_
  rw [if_neg (h n (Finset.mem_range.mp hn))]

theorem inv_wState : Inv wState := by
  refine ⟨?_, ?_, ?_, ?_, ?_⟩
  · intro id d hx
    by_cases hid : id = 0
    · have hd : d = 0 := by
        have hx2 : (if id = 0 then some 0 else none) = some d := hx
        rw [if_pos hid] at hx2
        injection hx2 with hh
        omega
      rw [hid, hd]
      decide
    · exfalso
      have hx2 : (if id = 0 then some 0 else none) = some d := hx
      rw [if_neg hid] at hx2
      exact Option.noConfusion hx2
  · intro id hx
    by_cases hid : id = 0
    · exfalso
      have hx2 : (if id = 0 then some 0 else none) = none := hx
      rw [if_pos hid] at hx2
      exact Option.noConfusion hx2
    · show slotCountF wState.fdTable wState.limit id = 0
      refine slotCountF_eq_zero _ _ _ fun n hn => ?_
      have hn8 : n < 8 := hn
      have h0id : ¬((0 : Nat) = id) := fun hh => hid hh.symm
      interval_cases n <;> simp [wState, FDEntry.handle.injEq, h0id]
  · intro id hx
    have hx2 : (1 : Nat) ≤ id := hx
    show (if id = 0 then some 0 else none) = none
    rw [if_neg (by omega)]
  · show ([] : List Nat).Nodup
    exact List.nodup_nil
  · intro id hx
    exact absurd hx (List.not_mem_nil id)

/-- C1: as stated, the alias-count invariant is *not* maintained by the
code: `dup2` into slot 0 or 1 when that slot holds a real handle goes
through `close`'s `fd == 0`/`fd == 1` standard-stream branch, which
neither clears the slot nor adjusts the overwritten handle's `dupCount`.
After `open; dup2(2,0); open; dup2(3,0)` from the initial state, handle 0
has `dupCount` 1 but only one descriptor slot pointing at it, falsifying
"alias count = slots − 1". -/
theorem fd_alias_invariant_cex :
    cexState.files 0 = some 1 ∧ slotCount cexState 0 = 1 ∧
    ¬(∀ id d, cexState.files id = some d → slotCount cexState id = d + 1) :=
  ⟨by decide, by decide, fun hall => by
    have hx := hall 0 1 (by decide)
    have hy : slotCount cexState 0 = 1 := by decide
    omega⟩

/-- C1 (amended): restricted to `dup2` calls whose target descriptor lies
in `[2, LIMIT)`, the alias-count invariant `dupCount = slots − 1` holds
and is preserved by `close`, `open` (which performs `add` on a fresh
handle), and `dup2`; moreover `dup2(a,b)` with `a ≠ b` makes `get(a)` and
`get(b)` resolve to the same handle, closing `b` afterwards neither
invalidates `a` nor frees the handle, and `file_close` runs exactly when
the closed descriptor is the handle's last alias (`dupCount = 0`, i.e.
exactly one slot points at it); the close log stays duplicate-free, so
each handle is released at most once. -/
theorem fd_alias_invariant :
    (∀ s fd, Inv s → Inv (close s fd)) ∧
    (∀ s ok, Inv s → Inv (sys_open s ok).1) ∧
    (∀ s a b, Inv s → 2 ≤ b → b < (s.limit : Int) → Inv (dup2 s a b).1) ∧
    (∀ s a b h, Inv s → process_get_file s a = .handle h → 2 ≤ b →
      b < (s.limit : Int) → a ≠ b →
      process_get_file (dup2 s a b).1 a = .handle h ∧
      process_get_file (dup2 s a b).1 b = .handle h ∧
      (dup2 s a b).2 = b ∧
      process_get_file (close (dup2 s a b).1 b) a = .handle h ∧
      (close (dup2 s a b).1 b).files h ≠ none) ∧
    (∀ s fd h, Inv s → process_get_file s fd = .handle h → 2 ≤ fd →
      ((close s fd).closedLog
        = if s.files h = some 0 then h :: s.closedLog else s.closedLog) ∧
      (s.files h = some 0 ↔ slotCount s h = 1)) := by
  refine ⟨close_preserves_inv, sys_open_preserves_inv, dup2_preserves_inv, ?_, ?_⟩
  · intro s a b h hInv hga hb2 hbl hab
    have hnn : process_get_file s a ≠ .null := by rw [hga]; simp
    have hmain := dup2_eq_main s a b hnn hab
    obtain ⟨ha0, hal, hat⟩ := get_bounds s a (.handle h) hga (by simp)
    have hlim2 : (close (dupBump s (process_get_file s a)) b).limit = s.limit := by
      rw [close_limit, dupBump_limit]
    have hlim' : (dup2 s a b).1.limit = s.limit := by
      rw [hmain]
      exact hlim2
    have htab' : (dup2 s a b).1.fdTable
        = Function.update (close (dupBump s (process_get_file s a)) b).fdTable b
          (process_get_file s a) := by
      rw [hmain]
    have hgb : process_get_file (dup2 s a b).1 b = .handle h := by
      unfold process_get_file
      rw [if_pos ⟨by omega, by rw [hlim']; exact hbl⟩, htab', Function.update_same, hga]
    have hga' : process_get_file (dup2 s a b).1 a = .handle h := by
      unfold process_get_file
      rw [if_pos ⟨ha0, by rw [hlim']; exact hal⟩, htab', Function.update_noteq hab,
        close_fdTable_ne _ b a hab, dupBump_fdTable, hat]
    have hret : (dup2 s a b).2 = b := by rw [hmain]
    have hInv' : Inv (dup2 s a b).1 := dup2_preserves_inv s a b hInv hb2 hbl
    obtain ⟨ha0', hal', hat'⟩ := get_bounds (dup2 s a b).1 a (.handle h) hga' (by simp)
    obtain ⟨hb0', hbl', hbt'⟩ := get_bounds (dup2 s a b).1 b (.handle h) hgb (by simp)
    have hcnt2 : 2 ≤ slotCount (dup2 s a b).1 h :=
      slotCountF_two (dup2 s a b).1.fdTable (dup2 s a b).1.limit h a b
        ha0' hal' hb0' hbl' hab hat' hbt'
    obtain ⟨d', hd'⟩ : ∃ d', (dup2 s a b).1.files h = some d' := by
      cases hfh : (dup2 s a b).1.files h with
      | none =>
          have := hInv'.2.1 h hfh
          omega
      | some d' => exact ⟨d', rfl⟩
    have hd'pos : 1 ≤ d' := by
      have := hInv'.1 h d' hd'
      omega
    obtain ⟨e, rfl⟩ : ∃ e, d' = e + 1 := ⟨d' - 1, by omega⟩
    have hpcf2 := process_close_file_inb (dup2 s a b).1 b hb0' hbl'
    have hclose2 := close_handle_eq (dup2 s a b).1 b h hgb hb2
    rw [hclose2]
    rw [closeHeap_some_succ (process_close_file (dup2 s a b).1 b) h e
      (by rw [hpcf2]; exact hd')]
    refine ⟨hga', hgb, hret, ?_, ?_⟩
    · unfold process_get_file
      have hLcl : ({ process_close_file (dup2 s a b).1 b with
          files := Function.update (process_close_file (dup2 s a b).1 b).files h
            (some e) } : PState).limit = (dup2 s a b).1.limit := by
        rw [hpcf2]
      rw [if_pos ⟨ha0, by rw [hLcl]; exact hal'⟩]
      show (process_close_file (dup2 s a b).1 b).fdTable a = .handle h
      rw [hpcf2]
      show Function.update (dup2 s a b).1.fdTable b .null a = .handle h
      rw [Function.update_noteq hab, hat']
    · show Function.update (process_close_file (dup2 s a b).1 b).files h (some e) h
        ≠ none
      rw [Function.update_same]
      exact fun hh => Option.noConfusion hh
  · intro s fd h hInv hget hfd
    refine ⟨close_release_iff s fd h hget hfd, ?_, ?_⟩
    · intro hz
      have := hInv.1 h 0 hz
      omega
    · intro hone
      obtain ⟨d, hd⟩ : ∃ d, s.files h = some d := by
        cases hfh : s.files h with
        | none =>
            have := hInv.2.1 h hfh
            omega
        | some d => exact ⟨d, rfl⟩
      have := hInv.1 h d hd
      have hd0 : d = 0 := by omega
      rw [hd, hd0]

/-- Witness for `fd_alias_invariant`: every conjunct applied to the
concrete state `wState` (one real file, id 0, at descriptor 2). -/
theorem fd_alias_invariant_witness :
    Inv (close wState 2) ∧ Inv (sys_open wState true).1 ∧ Inv (dup2 wState 2 3).1 ∧
    (process_get_file (dup2 wState 2 3).1 2 = .handle 0 ∧
      process_get_file (dup2 wState 2 3).1 3 = .handle 0 ∧
      (dup2 wState 2 3).2 = 3 ∧
      process_get_file (close (dup2 wState 2 3).1 3) 2 = .handle 0 ∧
      (close (dup2 wState 2 3).1 3).files 0 ≠ none) ∧
    ((close wState 2).closedLog
      = if wState.files 0 = some 0 then 0 :: wState.closedLog else wState.closedLog) ∧
    (wState.files 0 = some 0 ↔ slotCount wState 0 = 1) :=
  ⟨fd_alias_invariant.1 wState 2 inv_wState,
    fd_alias_invariant.2.1 wState true inv_wState,
    fd_alias_invariant.2.2.1 wState 2 3 inv_wState (by decide) (by decide),
    fd_alias_invariant.2.2.2.1 wState 2 3 0 inv_wState (by decide) (by decide)
      (by decide) (by decide),
    (fd_alias_invariant.2.2.2.2 wState 2 0 inv_wState (by decide) (by decide)).1,
    (fd_alias_invariant.2.2.2.2 wState 2 0 inv_wState (by decide) (by decide)).2⟩

/-- C2 (code bug): `dup2` performs no bounds check on `newfd` (the
fetched `new_file` is never inspected).  At a state with
`FDCOUNT_LIMIT = 4` and a real handle at descriptor 2, `dup2(2, 4)`
reports success (returns 4, not −1) yet stores the handle at table index
4 — an index outside `[0, FDCOUNT_LIMIT)`, i.e. an out-of-bounds write
through `fdt[newfd]` in the C. -/
theorem dup2_out_of_bounds_write :
    (dup2 c2State 2 4).2 = 4 ∧
    (dup2 c2State 2 4).2 ≠ -1 ∧
    (dup2 c2State 2 4).1.fdTable 4 = .handle 0 ∧
    ¬(0 ≤ (4 : Int) ∧ (4 : Int) < (c2State.limit : Int)) :=
  ⟨by decide, by decide, by decide, by decide⟩

/-! ### The table-filling scenario (claim C6) -/

theorem close_fdIdx (s : PState) (fd : Int) : (close s fd).fdIdx = s.fdIdx := by
  by_cases h1 : process_get_file s fd = .null
  · rw [close_of_null s fd h1]
  · by_cases h2 :
        process_get_file s fd = .stdin ∨ process_get_file s fd = .stdout ∨ fd ≤ 1
    · exact (close_counters_only s fd h1 h2).2.2.2.2.1
    · push_neg at h2
      obtain ⟨hns, hno, hfd⟩ := h2
      cases hget : process_get_file s fd with
      | null => exact absurd hget h1
      | stdin => exact absurd hget hns
      | stdout => exact absurd hget hno
      | handle id =>
          rw [close_handle_eq s fd id hget (by omega), closeHeap_fdIdx]
          unfold process_close_file
          split <;> rfl

/-- State of the table after `k` successful `open`s from the initial
state: slots `[0, k+2)` are occupied, slots `[k+2, limit)` free, and the
scan mark is at most `k + 2`. -/
theorem openIter_filled (limit : Nat) (hl : 2 ≤ limit) :
    ∀ k, k ≤ limit - 2 →
      (openIter (initState limit) k).limit = limit ∧
      (openIter (initState limit) k).fdIdx ≤ k + 2 ∧
      (∀ n, n < limit →
        ((openIter (initState limit) k).fdTable (n : Int) = .null ↔ k + 2 ≤ n)) := by
  intro k
  induction k with
  | zero =>
      intro hk
      refine ⟨rfl, by show (2 : Nat) ≤ 2; omega, ?_⟩
      intro n hn
      show (if (n : Int) = 0 then FDEntry.stdin
        else if (n : Int) = 1 then FDEntry.stdout else FDEntry.null) = .null ↔ 2 ≤ n
      by_cases h0 : n = 0
      · rw [if_pos (by rw [h0]; rfl)]
        constructor
        · intro hh
          exact absurd hh (by simp)
        · intro hh
          omega
      · rw [if_neg (by omega : ¬((n : Int) = 0))]
        by_cases h1 : n = 1
        · rw [if_pos (by rw [h1]; rfl)]
          constructor
          · intro hh
            exact absurd hh (by simp)
          · intro hh
            omega
        · rw [if_neg (by omega : ¬((n : Int) = 1))]
          constructor
          · intro _
            omega
          · intro _
            rfl
  | succ k ih =>
      intro hk
      obtain ⟨hLim, hIdx, hTab⟩ := ih (by omega)
      have hscan : scanFrom (openIter (initState limit) k).fdTable
          (openIter (initState limit) k).limit (openIter (initState limit) k).fdIdx
          = k + 2 := by
        rw [hLim]
        refine scanFrom_eq_of _ limit _ (k + 2) hIdx (by omega) ?_ ?_
        · intro hk2
          exact (hTab (k + 2) hk2).mpr (Nat.le_refl _)
        · intro i hi1 hi2
          intro hnull
          have := (hTab i (by omega)).mp hnull
          omega
      have hlt : scanFrom (openIter (initState limit) k).fdTable
          (openIter (initState limit) k).limit (openIter (initState limit) k).fdIdx
          < (openIter (initState limit) k).limit := by
        rw [hscan, hLim]
        omega
      show (sys_open (openIter (initState limit) k) true).1.limit = limit ∧
        (sys_open (openIter (initState limit) k) true).1.fdIdx ≤ k + 1 + 2 ∧
        (∀ n, n < limit →
          ((sys_open (openIter (initState limit) k) true).1.fdTable (n : Int) = .null
            ↔ k + 1 + 2 ≤ n))
      rw [sys_open_store_eq (openIter (initState limit) k) hlt]
      refine ⟨hLim, ?_, ?_⟩
      · show scanFrom (openIter (initState limit) k).fdTable
          (openIter (initState limit) k).limit (openIter (initState limit) k).fdIdx
          ≤ k + 1 + 2
        omega
      · intro n hn
        show Function.update (openIter (initState limit) k).fdTable
            ((scanFrom (openIter (initState limit) k).fdTable
              (openIter (initState limit) k).limit
              (openIter (initState limit) k).fdIdx : Nat) : Int)
            (.handle (openIter (initState limit) k).nextId) (n : Int)
            = .null ↔ k + 1 + 2 ≤ n
        rw [hscan, Function.update_apply]
        by_cases hn2 : n = k + 2
        · rw [if_pos (by rw [hn2])]
          constructor
          · intro hh
            exact absurd hh (by simp)
          · intro hh
            omega
        · rw [if_neg (by omega : ¬((n : Int) = ((k + 2 : Nat) : Int)))]
          rw [hTab n hn]
          omega

/-- C6: `process_add_file` advances the mark to the first free slot at or
above it (all slots in between are occupied), stores there and returns
that index, or returns −1 once the mark reaches `LIMIT`; `close` never
moves the mark back; and from the initial state, `LIMIT − 2` opens
succeed at descriptors 2, 3, … while the next one fails with −1. -/
theorem process_add_file_scan :
    (∀ s f,
      s.fdIdx ≤ scanFrom s.fdTable s.limit s.fdIdx ∧
      (∀ i, s.fdIdx ≤ i → i < scanFrom s.fdTable s.limit s.fdIdx →
        s.fdTable (i : Int) ≠ .null) ∧
      (scanFrom s.fdTable s.limit s.fdIdx < s.limit →
        s.fdTable ((scanFrom s.fdTable s.limit s.fdIdx : Nat) : Int) = .null ∧
        process_add_file s f =
          ({ s with
              fdIdx := scanFrom s.fdTable s.limit s.fdIdx
              fdTable := Function.update s.fdTable
                ((scanFrom s.fdTable s.limit s.fdIdx : Nat) : Int) f },
            ((scanFrom s.fdTable s.limit s.fdIdx : Nat) : Int))) ∧
      (s.limit ≤ scanFrom s.fdTable s.limit s.fdIdx →
        process_add_file s f = ({ s with fdIdx := scanFrom s.fdTable s.limit s.fdIdx }, -1))) ∧
    (∀ s fd, (close s fd).fdIdx = s.fdIdx) ∧
    (∀ s f, s.fdIdx ≤ (process_add_file s f).1.fdIdx) ∧
    (∀ limit, 2 ≤ limit →
      (∀ k, k < limit - 2 →
        (sys_open (openIter (initState limit) k) true).2 = ((k + 2 : Nat) : Int)) ∧
      (sys_open (openIter (initState limit) (limit - 2)) true).2 = -1) := by
  refine ⟨?_, close_fdIdx, ?_, ?_⟩
  · intro s f
    refine ⟨scanFrom_ge s.fdTable s.limit s.fdIdx,
      fun i h1 h2 => scanFrom_occupied s.fdTable s.limit s.fdIdx i h1 h2, ?_, ?_⟩
    · intro hlt
      exact ⟨scanFrom_null s.fdTable s.limit s.fdIdx hlt,
        process_add_file_store s f hlt⟩
    · intro hge
      exact process_add_file_full s f hge
  · intro s f
    by_cases hj : s.limit ≤ scanFrom s.fdTable s.limit s.fdIdx
    · rw [process_add_file_full s f hj]
      exact scanFrom_ge s.fdTable s.limit s.fdIdx
    · rw [process_add_file_store s f (by omega)]
      exact scanFrom_ge s.fdTable s.limit s.fdIdx
  · intro limit hl
    constructor
    · intro k hk
      obtain ⟨hLim, hIdx, hTab⟩ := openIter_filled limit hl k (by omega)
      have hscan : scanFrom (openIter (initState limit) k).fdTable
          (openIter (initState limit) k).limit (openIter (initState limit) k).fdIdx
          = k + 2 := by
        rw [hLim]
        refine scanFrom_eq_of _ limit _ (k + 2) hIdx (by omega) ?_ ?_
        · intro hk2
          exact (hTab (k + 2) hk2).mpr (Nat.le_refl _)
        · intro i hi1 hi2
          intro hnull
          have := (hTab i (by omega)).mp hnull
          omega
      have hlt : scanFrom (openIter (initState limit) k).fdTable
          (openIter (initState limit) k).limit (openIter (initState limit) k).fdIdx
          < (openIter (initState limit) k).limit := by
        rw [hscan, hLim]
        omega
      rw [sys_open_store_eq (openIter (initState limit) k) hlt]
      show ((scanFrom (openIter (initState limit) k).fdTable
        (openIter (initState limit) k).limit
        (openIter (initState limit) k).fdIdx : Nat) : Int) = ((k + 2 : Nat) : Int)
      rw [hscan]
    · obtain ⟨hLim, hIdx, hTab⟩ := openIter_filled limit hl (limit - 2) (Nat.le_refl _)
      have hscan : scanFrom (openIter (initState limit) (limit - 2)).fdTable
          (openIter (initState limit) (limit - 2)).limit
          (openIter (initState limit) (limit - 2)).fdIdx = limit := by
        rw [hLim]
        refine scanFrom_eq_of _ limit _ limit (by omega) (Nat.le_refl _) ?_ ?_
        · intro hc
          omega
        · intro i hi1 hi2
          intro hnull
          have := (hTab i hi2).mp hnull
          omega
      have hge : (openIter (initState limit) (limit - 2)).limit ≤
          scanFrom (openIter (initState limit) (limit - 2)).fdTable
            (openIter (initState limit) (limit - 2)).limit
            (openIter (initState limit) (limit - 2)).fdIdx := by
        rw [hscan, hLim]
      rw [sys_open_full_eq (openIter (initState limit) (limit - 2)) hge]

/-- Witness for `process_add_file_scan` at concrete inputs: with
`LIMIT = 5`, the second `open` lands at descriptor 3 and the fourth
(after `LIMIT − 2 = 3` opens) fails with −1; `close` keeps the mark. -/
theorem process_add_file_scan_witness :
    wState.fdIdx ≤ scanFrom wState.fdTable wState.limit wState.fdIdx ∧
    (close wState 0).fdIdx = wState.fdIdx ∧
    wState.fdIdx ≤ (process_add_file wState (.handle 1)).1.fdIdx ∧
    (sys_open (openIter (initState 5) 1) true).2 = ((1 + 2 : Nat) : Int) ∧
    (sys_open (openIter (initState 5) (5 - 2)) true).2 = -1 :=
  ⟨(process_add_file_scan.1 wState (.handle 1)).1,
    process_add_file_scan.2.1 wState 0,
    process_add_file_scan.2.2.1 wState (.handle 1),
    (process_add_file_scan.2.2.2 5 (by decide)).1 1 (by decide),
    (process_add_file_scan.2.2.2 5 (by decide)).2⟩

/-! ### The console I/O claims (C5, C7, C8) -/

/-- Full characterization of `read`'s stdin copy loop, from position `i`:
it stops at the first terminator in `[i, size)` (storing it), else copies
all of `[i, size)`. -/
theorem readLoop_spec (input : Nat → Nat) (size i : Nat) (hi : i ≤ size) :
    readLoop input size i =
      match (List.range' i (size - i)).find? (fun j => input j == 0) with
      | some j => ((List.range' i (j + 1 - i)).map input, j)
      | none => ((List.range' i (size - i)).map input, size) := by
  rw [readLoop_unfold]
  by_cases hlt : i < size
  · rw [if_pos hlt]
    have hrange : size - i = (size - (i + 1)) + 1 := by omega
    rw [hrange, List.range'_succ]
    by_cases hz : input i = 0
    · rw [if_pos hz]
      rw [List.find?_cons_of_pos _ (by simp [hz])]
      show ([input i], i) = (List.map input (List.range' i (i + 1 - i)), i)
      have h1 : i + 1 - i = 1 := by omega
      rw [h1]
      simp
    · rw [if_neg hz]
      rw [List.find?_cons_of_neg _ (by simp [hz])]
      rw [readLoop_spec input size (i + 1) (by omega)]
      cases hfind : (List.range' (i + 1) (size - (i + 1))).find? (fun j => input j == 0) with
      | some j =>
          have hj : i + 1 ≤ j := by
            have hmem := List.mem_of_find?_eq_some hfind
            have := (List.mem_range'_1.mp hmem).1
            omega
          show (input i :: List.map input (List.range' (i + 1) (j + 1 - (i + 1))), j)
            = (List.map input (List.range' i (j + 1 - i)), j)
          have h1 : j + 1 - i = (j + 1 - (i + 1)) + 1 := by omega
          rw [h1, List.range'_succ]
          simp
      | none =>
          show (input i :: List.map input (List.range' (i + 1) (size - (i + 1))), size)
            = (List.map input (i :: List.range' (i + 1) (size - (i + 1))), size)
          simp
  · rw [if_neg hlt]
    have h0 : size - i = 0 := by omega
    have hie : i = size := by omega
    rw [h0, hie]
    simp
termination_by size - i
decreasing_by omega

/-- C5 (corrected): at the concrete state `wState` (stdin at descriptor
0, open count 1) with the console producing a terminator byte at once and
`length = 3`, `read` stores one byte (the terminator) into the buffer but
returns 0 — not the number of bytes stored. -/
theorem read_stdin_return_cex :
    readSys wState 0 3 (fun _ => 0) true 0 = .ok wState 0 false [0] ∧
    ([0] : List Nat).length = 1 ∧ (0 : Int) ≠ 1 :=
  ⟨rfl, rfl, by decide⟩

/-- C5 (amended): `read` on the input stream with a non-zero open count
copies console bytes one at a time, stopping at the first terminator
within `length` bytes; the terminator is stored in the buffer but the
return value counts only the bytes before it (so stored = returned + 1 in
the early-stop case); with no terminator, exactly `length` bytes are
stored and returned. -/
theorem read_stdin_terminator (s : PState) (fd : Int) (size : Nat) (input : Nat → Nat)
    (frRet : Int) (hfd : process_get_file s fd = .stdin) (hcnt : s.stdin_count ≠ 0) :
    readSys s fd size input true frRet
      = .ok s ((readLoop input size 0).2 : Int) false (readLoop input size 0).1 ∧
    (∀ j, (List.range size).find? (fun j => input j == 0) = some j →
      (readLoop input size 0).1 = (List.range (j + 1)).map input ∧
      (readLoop input size 0).2 = j ∧
      (readLoop input size 0).1.length = j + 1) ∧
    ((List.range size).find? (fun j => input j == 0) = none →
      (readLoop input size 0).1 = (List.range size).map input ∧
      (readLoop input size 0).2 = size ∧
      (readLoop input size 0).1.length = size) := by
  have hspec := readLoop_spec input size 0 (Nat.zero_le size)
  rw [Nat.sub_zero, ← List.range_eq_range'] at hspec
  refine ⟨?_, ?_, ?_⟩
  · simp [readSys, hfd, hcnt]
  · intro j hj
    rw [hj] at hspec
    have hspec2 : readLoop input size 0
        = (List.map input (List.range' 0 (j + 1 - 0)), j) := hspec
    rw [Nat.sub_zero, ← List.range_eq_range'] at hspec2
    refine ⟨?_, ?_, ?_⟩
    · rw [hspec2]
    · rw [hspec2]
    · rw [hspec2]
      simp
  · intro hj
    rw [hj] at hspec
    have hspec2 : readLoop input size 0
        = (List.map input (List.range size), size) := hspec
    refine ⟨?_, ?_, ?_⟩
    · rw [hspec2]
    · rw [hspec2]
    · rw [hspec2]
      simp

/-- Witness for `read_stdin_terminator`: `wState`, descriptor 0, console
bytes all 1 (no terminator), `length = 2`. -/
theorem read_stdin_terminator_witness :
    process_get_file wState 0 = .stdin ∧ wState.stdin_count ≠ 0 ∧
    readSys wState 0 2 (fun _ => 1) true 0
      = .ok wState ((readLoop (fun _ => 1) 2 0).2 : Int) false
        (readLoop (fun _ => 1) 2 0).1 ∧
    ((List.range 2).find? (fun _ => (1 : Nat) == 0) = none →
      (readLoop (fun _ => 1) 2 0).1 = (List.range 2).map (fun _ => 1) ∧
      (readLoop (fun _ => 1) 2 0).2 = 2 ∧
      (readLoop (fun _ => 1) 2 0).1.length = 2) :=
  ⟨by decide, by decide,
    (read_stdin_terminator wState 0 2 (fun _ => 1) 0 (by decide) (by decide)).1,
    (read_stdin_terminator wState 0 2 (fun _ => 1) 0 (by decide) (by decide)).2.2⟩

/-- C7: `write` to the output stream with a non-zero open count returns
exactly the requested length, never touches `filesys_lock`, sends the
`size` buffer bytes to the console, and leaves the process state
unchanged. -/
theorem write_stdout_spec (s : PState) (fd : Int) (buffer : Nat → Nat) (size : Nat)
    (fwRet : Int) (hfd : process_get_file s fd = .stdout) (hcnt : s.stdout_count ≠ 0) :
    writeSys s fd buffer size true fwRet
      = .ok s (size : Int) false ((List.range size).map buffer) := by
  simp [writeSys, hfd, hcnt]

/-- Witness for `write_stdout_spec`: `wState`, descriptor 1, four bytes. -/
theorem write_stdout_spec_witness :
    process_get_file wState 1 = .stdout ∧ wState.stdout_count ≠ 0 ∧
    writeSys wState 1 (fun _ => 7) 4 true 0
      = .ok wState 4 false ((List.range 4).map (fun _ => 7)) :=
  ⟨by decide, by decide, write_stdout_spec wState 1 (fun _ => 7) 4 0 (by decide) (by decide)⟩

/-- C8: `write` on a descriptor resolving to the input stream and `read`
on one resolving to the output stream both return −1 without acquiring
the filesystem lock, without moving any bytes, and with the process state
(descriptor table and stream counters included) unchanged. -/
theorem wrong_direction_rw (s : PState) (fd : Int) (size : Nat)
    (buffer input : Nat → Nat) (frRet fwRet : Int) :
    (process_get_file s fd = .stdin →
      writeSys s fd buffer size true fwRet = .ok s (-1) false []) ∧
    (process_get_file s fd = .stdout →
      readSys s fd size input true frRet = .ok s (-1) false []) := by
  constructor
  · intro h
    simp [writeSys, h]
  · intro h
    simp [readSys, h]

/-- Witness for `wrong_direction_rw`: `wState` with `write` on descriptor
0 (stdin) and `read` on descriptor 1 (stdout). -/
theorem wrong_direction_rw_witness :
    writeSys wState 0 (fun _ => 7) 4 true 0 = .ok wState (-1) false [] ∧
    readSys wState 1 4 (fun _ => 7) true 0 = .ok wState (-1) false [] :=
  ⟨(wrong_direction_rw wState 0 4 (fun _ => 7) (fun _ => 7) 0 0).1 (by decide),
    (wrong_direction_rw wState 1 4 (fun _ => 7) (fun _ => 7) 0 0).2 (by decide)⟩

/-! ### The anonymous-page swap claims (C3, C4, C9, C10) -/

theorem diskWriteLoop_in (disk : Nat → Nat → Nat) (slot : Nat) (kva : Nat → Nat) :
    ∀ n i o, i < n →
      diskWriteLoop disk slot kva n (slot * SECTORS_PER_PAGE + i) o
        = kva (i * DISK_SECTOR_SIZE + o) := by
  intro n
  induction n with
  | zero =>
      intro i o h
      omega
  | succ m ih =>
      intro i o h
      show (if slot * SECTORS_PER_PAGE + i = slot * SECTORS_PER_PAGE + m
          then kva (m * DISK_SECTOR_SIZE + o)
          else diskWriteLoop disk slot kva m (slot * SECTORS_PER_PAGE + i) o)
        = kva (i * DISK_SECTOR_SIZE + o)
      by_cases him : i = m
      · rw [if_pos (by omega), him]
      · rw [if_neg (by omega)]
        exact ih i o (by omega)

theorem diskWriteLoop_out (disk : Nat → Nat → Nat) (slot : Nat) (kva : Nat → Nat) :
    ∀ n sec, (sec < slot * SECTORS_PER_PAGE ∨ slot * SECTORS_PER_PAGE + n ≤ sec) →
      ∀ o, diskWriteLoop disk slot kva n sec o = disk sec o := by
  intro n
  induction n with
  | zero =>
      intro sec _ o
      rfl
  | succ m ih =>
      intro sec hsec o
      show (if sec = slot * SECTORS_PER_PAGE + m then kva (m * DISK_SECTOR_SIZE + o)
          else diskWriteLoop disk slot kva m sec o) = disk sec o
      rw [if_neg (by omega)]
      exact ih sec (by omega) o

theorem diskReadLoop_in (disk : Nat → Nat → Nat) (slot : Nat) (kva : Nat → Nat) :
    ∀ n i o, i < n → o < DISK_SECTOR_SIZE →
      diskReadLoop disk slot kva n (i * DISK_SECTOR_SIZE + o)
        = disk (slot * SECTORS_PER_PAGE + i) o := by
  have hD : DISK_SECTOR_SIZE = 512 := rfl
  intro n
  induction n with
  | zero =>
      intro i o h _
      omega
  | succ m ih =>
      intro i o h ho
      show (if m * DISK_SECTOR_SIZE ≤ i * DISK_SECTOR_SIZE + o ∧
            i * DISK_SECTOR_SIZE + o < m * DISK_SECTOR_SIZE + DISK_SECTOR_SIZE
          then disk (slot * SECTORS_PER_PAGE + m)
            (i * DISK_SECTOR_SIZE + o - m * DISK_SECTOR_SIZE)
          else diskReadLoop disk slot kva m (i * DISK_SECTOR_SIZE + o))
        = disk (slot * SECTORS_PER_PAGE + i) o
      by_cases him : i = m
      · rw [if_pos (by rw [hD] at *; omega)]
        have harg : i * DISK_SECTOR_SIZE + o - m * DISK_SECTOR_SIZE = o := by
          rw [hD] at *
          omega
        rw [harg, him]
      · rw [if_neg (by rw [hD] at *; omega)]
        exact ih i o (by omega) ho

theorem diskReadLoop_out (disk : Nat → Nat → Nat) (slot : Nat) (kva : Nat → Nat) :
    ∀ n o, n * DISK_SECTOR_SIZE ≤ o → diskReadLoop disk slot kva n o = kva o := by
  have hD : DISK_SECTOR_SIZE = 512 := rfl
  intro n
  induction n with
  | zero =>
      intro o _
      rfl
  | succ m ih =>
      intro o ho
      show (if m * DISK_SECTOR_SIZE ≤ o ∧ o < m * DISK_SECTOR_SIZE + DISK_SECTOR_SIZE
          then disk (slot * SECTORS_PER_PAGE + m) (o - m * DISK_SECTOR_SIZE)
          else diskReadLoop disk slot kva m o) = kva o
      rw [if_neg (by rw [hD] at *; omega)]
      exact ih o (by rw [hD] at *; omega)

/-- Reading the slot's sectors back recovers every byte of the page that
was written out. -/
theorem roundtrip_content (d : Nat → Nat → Nat) (k : Nat) (c kva0 : Nat → Nat) :
    ∀ o, o < PGSIZE →
      diskReadLoop (diskWriteLoop d k c SECTORS_PER_PAGE) k kva0 SECTORS_PER_PAGE o
        = c o := by
  intro o ho
  have hD : DISK_SECTOR_SIZE = 512 := rfl
  have hS : SECTORS_PER_PAGE = 8 := rfl
  have hP : PGSIZE = 4096 := rfl
  have hoeq : (o / 512) * DISK_SECTOR_SIZE + o % 512 = o := by
    rw [hD]
    omega
  have h1 := diskReadLoop_in (diskWriteLoop d k c SECTORS_PER_PAGE) k kva0
    SECTORS_PER_PAGE (o / 512) (o % 512) (by rw [hS]; rw [hP] at ho; omega)
    (by rw [hD]; omega)
  rw [hoeq] at h1
  have h2 := diskWriteLoop_in d k c SECTORS_PER_PAGE (o / 512) (o % 512)
    (by rw [hS]; rw [hP] at ho; omega)
  rw [h1, h2, hoeq]

theorem scan_first_false_facts (bm : Nat → Bool) (size k : Nat)
    (hscan : bitmap_scan_first_false bm size = some k) :
    bm k = false ∧ k < size := by
  constructor
  · have := List.find?_some hscan
    simpa using this
  · have := List.mem_of_find?_eq_some hscan
    exact List.mem_range.mp this

/-- C3: for a Resident anonymous page with content `c`, `anon_swap_out`
allocates the first free slot `k` (previously clear), writes the page
across the `SECTORS_PER_PAGE` sectors starting at `k·SECTORS_PER_PAGE`
(touching no other sector), records slot `k` and detaches the frame; a
subsequent `anon_swap_in` into a fresh kva reads exactly those sectors
back bit-identically, clears bit `k` (and no other bit) and invalidates
the slot id, so the slot id is the invalid sentinel exactly in the
Resident phases and bit `k` is set exactly during the Swapped interval. -/
theorem anon_swap_roundtrip (sw : SwapSt) (p : PageSt) (fr : Frame) (c : Nat → Nat)
    (k : Nat) (kva0 : Nat → Nat)
    (hfr : p.frame = some fr) (hkva : fr.kva = some c) (hres : p.swap_slot_idx = none)
    (hscan : bitmap_scan_first_false sw.bitmap sw.size = some k) :
    anon_swap_out sw p = .result true
      { sw with
        bitmap := Function.update sw.bitmap k true
        disk := diskWriteLoop sw.disk k c SECTORS_PER_PAGE }
      { p with swap_slot_idx := some k, frame := none } ∧
    (sw.bitmap k = false ∧ k < sw.size) ∧
    (Function.update sw.bitmap k true k = true ∧
      ∀ j, j ≠ k → Function.update sw.bitmap k true j = sw.bitmap j) ∧
    (∀ i o, i < SECTORS_PER_PAGE →
      diskWriteLoop sw.disk k c SECTORS_PER_PAGE (k * SECTORS_PER_PAGE + i) o
        = c (i * DISK_SECTOR_SIZE + o)) ∧
    (∀ sec, (sec < k * SECTORS_PER_PAGE ∨ k * SECTORS_PER_PAGE + SECTORS_PER_PAGE ≤ sec) →
      ∀ o, diskWriteLoop sw.disk k c SECTORS_PER_PAGE sec o = sw.disk sec o) ∧
    anon_swap_in
      { sw with
        bitmap := Function.update sw.bitmap k true
        disk := diskWriteLoop sw.disk k c SECTORS_PER_PAGE }
      { p with swap_slot_idx := some k, frame := none } kva0
      = (true,
        { sw with
          bitmap := Function.update (Function.update sw.bitmap k true) k false
          disk := diskWriteLoop sw.disk k c SECTORS_PER_PAGE },
        { p with swap_slot_idx := none, frame := none },
        diskReadLoop (diskWriteLoop sw.disk k c SECTORS_PER_PAGE) k kva0
          SECTORS_PER_PAGE) ∧
    (Function.update (Function.update sw.bitmap k true) k false k = false ∧
      ∀ j, j ≠ k → Function.update (Function.update sw.bitmap k true) k false j
        = sw.bitmap j) ∧
    (∀ o, o < PGSIZE →
      diskReadLoop (diskWriteLoop sw.disk k c SECTORS_PER_PAGE) k kva0 SECTORS_PER_PAGE o
        = c o) ∧
    (∀ o, PGSIZE ≤ o →
      diskReadLoop (diskWriteLoop sw.disk k c SECTORS_PER_PAGE) k kva0 SECTORS_PER_PAGE o
        = kva0 o) ∧
    (p.frame ≠ none ∧ p.swap_slot_idx = none) ∧
    (({ p with swap_slot_idx := some k, frame := none } : PageSt).frame = none ∧
      ({ p with swap_slot_idx := some k, frame := none } : PageSt).swap_slot_idx ≠ none) ∧
    ({ p with swap_slot_idx := none, frame := none } : PageSt).swap_slot_idx = none := by
  obtain ⟨hbm, hk⟩ := scan_first_false_facts sw.bitmap sw.size k hscan
  refine ⟨?_, ⟨hbm, hk⟩, ⟨Function.update_same k true sw.bitmap,
      fun j hj => Function.update_noteq hj true sw.bitmap⟩,
    ?_, ?_, ?_, ?_, ?_, ?_, ?_, ?_, ?_⟩
  · simp [anon_swap_out, hscan, hfr, hkva]
  · intro i o hi
    exact diskWriteLoop_in sw.disk k c SECTORS_PER_PAGE i o hi
  · intro sec hsec o
    exact diskWriteLoop_out sw.disk k c SECTORS_PER_PAGE sec hsec o
  · simp [anon_swap_in]
  · constructor
    · rw [Function.update_same]
    · intro j hj
      rw [Function.update_noteq hj, Function.update_noteq hj]
  · exact roundtrip_content sw.disk k c kva0
  · intro o ho
    refine diskReadLoop_out _ k kva0 SECTORS_PER_PAGE o ?_
    have hD : DISK_SECTOR_SIZE = 512 := rfl
    have hS : SECTORS_PER_PAGE = 8 := rfl
    have hP : PGSIZE = 4096 := rfl
    rw [hD, hS]
    rw [hP] at ho
    omega
  · rw [hfr, hres]
    exact ⟨fun hh => Option.noConfusion hh, rfl⟩
  · exact ⟨rfl, fun hh => Option.noConfusion hh⟩
  · rfl

/-- Witness for `anon_swap_roundtrip`: a one-slot swap device, an
all-zero disk, and a Resident page whose content is `o % 256`. -/
theorem anon_swap_roundtrip_witness :
    (({ frame := some { kva := some fun o => o % 256 }, swap_slot_idx := none } :
        PageSt).frame = some ({ kva := some fun o => o % 256 } : Frame)) ∧
    bitmap_scan_first_false (fun _ => false) 1 = some 0 ∧
    (∀ o, o < PGSIZE →
      diskReadLoop (diskWriteLoop (fun _ _ => 0) 0 (fun o => o % 256) SECTORS_PER_PAGE)
        0 (fun _ => 37) SECTORS_PER_PAGE o = (fun o => o % 256) o) :=
  ⟨rfl, by decide,
    (anon_swap_roundtrip { size := 1, bitmap := fun _ => false, disk := fun _ _ => 0 }
      { frame := some { kva := some fun o => o % 256 }, swap_slot_idx := none }
      { kva := some fun o => o % 256 } (fun o => o % 256) 0 (fun _ => 37)
      rfl rfl rfl (by decide)).2.2.2.2.2.2.2.1⟩

/-- C4: `anon_destroy` takes exactly one of two paths: with a frame
attached it frees the frame (removing it from the frame list) and leaves
the whole swap state — bitmap included — untouched; with no frame it
asserts a valid slot id and clears exactly that one bitmap bit, touching
no frame and no disk sector. -/
theorem anon_destroy_paths (sw : SwapSt) (p : PageSt) :
    (∀ fr, p.frame = some fr → anon_destroy sw p = .ok sw true) ∧
    (∀ k, p.frame = none → p.swap_slot_idx = some k →
      anon_destroy sw p
        = .ok { sw with bitmap := Function.update sw.bitmap k false } false ∧
      Function.update sw.bitmap k false k = false ∧
      (∀ j, j ≠ k → Function.update sw.bitmap k false j = sw.bitmap j) ∧
      ({ sw with bitmap := Function.update sw.bitmap k false } : SwapSt).disk
        = sw.disk) := by
  constructor
  · intro fr h
    simp [anon_destroy, h]
  · intro k h1 h2
    refine ⟨by simp [anon_destroy, h1, h2], Function.update_same k false sw.bitmap,
      fun j hj => Function.update_noteq hj false sw.bitmap, rfl⟩

/-- Witness for `anon_destroy_paths`: both paths at concrete pages over a
one-slot swap state whose bit 0 is set. -/
theorem anon_destroy_paths_witness :
    anon_destroy { size := 1, bitmap := fun _ => true, disk := fun _ _ => 0 }
        { frame := some { kva := none }, swap_slot_idx := none }
      = .ok { size := 1, bitmap := fun _ => true, disk := fun _ _ => 0 } true ∧
    anon_destroy { size := 1, bitmap := fun _ => true, disk := fun _ _ => 0 }
        { frame := none, swap_slot_idx := some 0 }
      = .ok { size := 1,
              bitmap := Function.update (fun _ => true) 0 false,
              disk := fun _ _ => 0 } false :=
  ⟨(anon_destroy_paths { size := 1, bitmap := fun _ => true, disk := fun _ _ => 0 }
      { frame := some { kva := none }, swap_slot_idx := none }).1
      { kva := none } rfl,
    ((anon_destroy_paths { size := 1, bitmap := fun _ => true, disk := fun _ _ => 0 }
      { frame := none, swap_slot_idx := some 0 }).2 0 rfl rfl).1⟩

/-- C9: `anon_swap_in` on an already-Resident page (slot id equal to the
invalid sentinel) reports failure and is a complete no-op: no disk sector
is read into the kva, no bitmap bit changes, and the page is unchanged. -/
theorem anon_swap_in_resident_noop (sw : SwapSt) (p : PageSt) (kva : Nat → Nat)
    (h : p.swap_slot_idx = none) :
    anon_swap_in sw p kva = (false, sw, p, kva) := by
  simp [anon_swap_in, h]

/-- Witness for `anon_swap_in_resident_noop` at a concrete Resident page. -/
theorem anon_swap_in_resident_noop_witness :
    anon_swap_in { size := 1, bitmap := fun _ => false, disk := fun _ _ => 0 }
        { frame := some { kva := some fun _ => 3 }, swap_slot_idx := none }
        (fun _ => 5)
      = (false, { size := 1, bitmap := fun _ => false, disk := fun _ _ => 0 },
          { frame := some { kva := some fun _ => 3 }, swap_slot_idx := none },
          fun _ => 5) :=
  anon_swap_in_resident_noop
    { size := 1, bitmap := fun _ => false, disk := fun _ _ => 0 }
    { frame := some { kva := some fun _ => 3 }, swap_slot_idx := none }
    (fun _ => 5) rfl

/-- C10: `anon_swap_out` on a page with no frame (or a frame with a NULL
kva) first allocates slot `k` by scan-and-flip and only then hits the
null check: it returns `false` with bit `k` left set, no other bit and no
disk sector changed, and the page — its slot id included — unchanged, so
the allocated slot is never recorded anywhere and is leaked. -/
theorem anon_swap_out_leaks_slot (sw : SwapSt) (p : PageSt) (k : Nat)
    (hscan : bitmap_scan_first_false sw.bitmap sw.size = some k)
    (hbad : p.frame = none ∨ ∃ fr, p.frame = some fr ∧ fr.kva = none) :
    anon_swap_out sw p
      = .result false { sw with bitmap := Function.update sw.bitmap k true } p ∧
    sw.bitmap k = false ∧
    Function.update sw.bitmap k true k = true ∧
    (∀ j, j ≠ k → Function.update sw.bitmap k true j = sw.bitmap j) ∧
    ({ sw with bitmap := Function.update sw.bitmap k true } : SwapSt).disk = sw.disk := by
  obtain ⟨hbm, -⟩ := scan_first_false_facts sw.bitmap sw.size k hscan
  refine ⟨?_, hbm, Function.update_same k true sw.bitmap,
    fun j hj => Function.update_noteq hj true sw.bitmap, rfl⟩
  rcases hbad with hfr | ⟨fr, hfr, hkva⟩
  · simp [anon_swap_out, hscan, hfr]
  · simp [anon_swap_out, hscan, hfr, hkva]

/-- Witness for `anon_swap_out_leaks_slot`: a frameless page over a
two-slot map. -/
theorem anon_swap_out_leaks_slot_witness :
    anon_swap_out { size := 2, bitmap := fun _ => false, disk := fun _ _ => 0 }
        { frame := none, swap_slot_idx := none }
      = .result false
          { size := 2,
            bitmap := Function.update (fun _ => false) 0 true,
            disk := fun _ _ => 0 }
          { frame := none, swap_slot_idx := none } :=
  (anon_swap_out_leaks_slot { size := 2, bitmap := fun _ => false, disk := fun _ _ => 0 }
    { frame := none, swap_slot_idx := none } 0 (by decide) (Or.inl rfl)).1

end Pintos
